import Mathlib

/-!
Verification of the `chest` out-of-core dictionary (`src/chest/core.py`).

The store is shallowly embedded: Python dicts become association lists
(insertion-ordered, first-occurrence lookup, matching CPython semantics on
the flows exercised here), the file system becomes an association list from
absolute path strings to file contents, and every method of `Chest` becomes a
Lean function threading the store state and the file system explicitly.
Raised Python exceptions are modelled by an error result that carries the
mutated state, exactly as a raised exception leaves the object mutated.

External collaborators (per the specification they are outside the core):
the serialization codec is a pair `dump : V → Option B` (`none` models the
`TypeError` that `pickle.dump` raises on an unserializable value) and
`load : B → V`; the size estimator `nbytes` is an arbitrary `V → Nat`;
`hashlib.md5(...).hexdigest()` is an arbitrary `String → String` parameter
(no theorem below depends on more than it being a function of its input).
-/

set_option autoImplicit false

namespace ChestModel

/-! ## Association lists modelling Python `dict` (and the file system) -/

/-- `lookupA l k` models `l[k]`/`l.get(k)` on a Python dict represented as an
insertion-ordered association list: the first binding of `k` wins. -/
def lookupA {K V : Type} [DecidableEq K] : List (K × V) → K → Option V
  | [], _ => none
  | (k', v) :: rest, k => if k = k' then some v else lookupA rest k

/-- `memA l k` models `k in l` for a Python dict. -/
def memA {K V : Type} [DecidableEq K] (l : List (K × V)) (k : K) : Bool :=
  (lookupA l k).isSome

/-- `insertA l k v` models `l[k] = v` on a Python dict: an existing binding is
updated in place (keeping its position), a new key is appended at the end. -/
def insertA {K V : Type} [DecidableEq K] : List (K × V) → K → V → List (K × V)
  | [], k, v => [(k, v)]
  | (k', v') :: rest, k, v =>
      if k = k' then (k, v) :: rest else (k', v') :: insertA rest k v

/-- `eraseA l k` models `del l[k]` (the caller checks presence): the first
binding of `k` is removed. -/
def eraseA {K V : Type} [DecidableEq K] : List (K × V) → K → List (K × V)
  | [], _ => []
  | (k', v') :: rest, k => if k = k' then rest else (k', v') :: eraseA rest k

/-- `popMin l` models `heapdict.popitem()`: it removes and returns the entry
with the smallest priority (`none` when the heap is empty, where the real
`heapdict` raises).  Priorities produced by the store are pairwise distinct
(a strictly increasing counter), so the first-minimal tie-break is harmless. -/
def popMin {K : Type} : List (K × Nat) → Option ((K × Nat) × List (K × Nat))
  | [] => none
  | (k, p) :: rest =>
      match popMin rest with
      | none => some ((k, p), [])
      | some ((k', p'), rest') =>
          if p ≤ p' then some ((k, p), rest) else some ((k', p'), (k, p) :: rest')

/-! ## Errors, results, files -/

/-- The Python exceptions the embedded code can raise.
`heapEmpty` models the exception `heapdict.popitem()` raises on an empty
heap (the implementation pops `self.heap[0]` from an empty list);
`ioError` models `FileNotFoundError`/`FileExistsError`/`EOFError` from
`open`/`os.link`/`load`. -/
inductive PyError : Type
  | keyError
  | typeError
  | heapEmpty
  | ioError
  deriving DecidableEq, Repr

/-- Result of running a method on state `σ`: like Python, a raised exception
(`err`) leaves behind the state as mutated so far. -/
inductive Res (σ α : Type) : Type
  | ok : α → σ → Res σ α
  | err : PyError → σ → Res σ α
  deriving DecidableEq, Repr

/-- Contents of one file.  `val b` is a value serialized by the codec;
`keyIndex l` is the `.keys` sidecar (written by `write_keys` with the same
codec applied to `list(self._keys.items())`; modelled as always serializable,
no claim here makes the key/path list itself unserializable);
`emptyFile` is a file created by `open(fn, 'w')` but never written. -/
inductive FileData (K V B : Type) : Type
  | emptyFile
  | val : B → FileData K V B
  | keyIndex : List (K × String) → FileData K V B
  deriving DecidableEq, Repr

/-- The file system: absolute path → contents. -/
def FS (K V B : Type) : Type := List (String × FileData K V B)

instance {K V B : Type} [DecidableEq K] [DecidableEq V] [DecidableEq B] :
    DecidableEq (FS K V B) := by
  unfold FS; infer_instance

/-! ## The store -/

/-- Constructor-time configuration of one `Chest` (see `Chest.__init__`):
the directory `path`, the memory budget `available_memory`, the codec
`dump`/`load`, the external size estimator `nbytes`, and the
`key_to_filename` function `ktf` (the `_key_to_filename` attribute). -/
structure Config (K V B : Type) : Type where
  path : String
  availableMemory : Nat
  dump : V → Option B
  load : B → V
  nbytes : V → Nat
  ktf : K → String

/-- Mutable state of one `Chest`: the resident table `self.inmem`, the key
index `self._keys` (key → relative filename), the recency heap `self.heap`
and its clock `self.counter`. -/
structure ChestState (K V : Type) : Type where
  inmem : List (K × V)
  keys : List (K × String)
  heap : List (K × Nat)
  counter : Nat
  deriving DecidableEq, Repr

/-- `Chest.__init__(data, path=fresh directory)`: the seed dict becomes
`inmem` unchanged, `_keys` starts empty (the seed keys are NOT registered),
and since the directory is fresh there is no `.keys` sidecar to load. -/
def chestInit {K V : Type} (data : List (K × V)) : ChestState K V :=
  { inmem := data, keys := [], heap := [], counter := 0 }

variable {K V B : Type} [DecidableEq K]

/-- `Chest.key_to_filename` (the method): the path recorded in `_keys` if
present, else the configured `_key_to_filename` of the key; joined under
`self.path`. -/
def keyToFilename (cfg : Config K V B) (s : ChestState K V) (k : K) : String :=
  match lookupA s.keys k with
  | some fn => cfg.path ++ "/" ++ fn
  | none => cfg.path ++ "/" ++ cfg.ktf k

/-- `Chest.move_to_disk`: write-once (skip the write when the file already
exists), on a `TypeError` from `dump` remove the partial file (net: the file
system is unchanged) and re-raise; finally `del self.inmem[key]`.
When the key is not resident: in the write branch `open` has already created
the file, and the `KeyError` from `self.inmem[key]` is not caught, leaving an
empty artifact; in the skip branch `del` raises with nothing mutated. -/
def moveToDisk (cfg : Config K V B) (s : ChestState K V) (fs : FS K V B)
    (k : K) : Res (ChestState K V × FS K V B) Unit :=
  let fn := keyToFilename cfg s k
  if memA fs fn then
    if memA s.inmem k then
      .ok () ({ s with inmem := eraseA s.inmem k }, fs)
    else
      .err .keyError (s, fs)
  else
    match lookupA s.inmem k with
    | none => .err .keyError (s, insertA fs fn .emptyFile)
    | some v =>
        match cfg.dump v with
        | none => .err .typeError (s, fs)
        | some b =>
            .ok () ({ s with inmem := eraseA s.inmem k },
                    insertA fs fn (.val b))

/-- `Chest.get_from_disk`: no-op when resident, else open and `load` the
file at the key's path and store the value in `inmem`.  A missing file is
`FileNotFoundError`; an empty or sidecar file fails to decode as a value. -/
def getFromDisk (cfg : Config K V B) (s : ChestState K V) (fs : FS K V B)
    (k : K) : Res (ChestState K V × FS K V B) Unit :=
  if memA s.inmem k then .ok () (s, fs)
  else
    let fn := keyToFilename cfg s k
    match lookupA fs fn with
    | some (.val b) =>
        .ok () ({ s with inmem := insertA s.inmem k (cfg.load b) }, fs)
    | some _ => .err .ioError (s, fs)
    | none => .err .ioError (s, fs)

/-- `Chest._update_lru`: increment the clock and set the key's heap priority
to it. -/
def updateLru (s : ChestState K V) (k : K) : ChestState K V :=
  { s with counter := s.counter + 1, heap := insertA s.heap k (s.counter + 1) }

/-- `Chest.memory_usage`: sum of the size estimator over resident values. -/
def memoryUsage (cfg : Config K V B) (s : ChestState K V) : Nat :=
  (s.inmem.map (fun kv => cfg.nbytes kv.2)).sum

/-- `popitem` always removes one entry, so the eviction loop terminates. -/
theorem popMin_length_lt {K : Type} :
    ∀ {l : List (K × Nat)} {x : K × Nat} {rest : List (K × Nat)},
      popMin l = some (x, rest) → rest.length < l.length
  | [], x, rest, h => by simp [popMin] at h
  | (k, p) :: tl, x, rest, h => by
      cases htl : popMin tl with
      | none =>
          simp only [popMin, htl] at h
          cases h
          simp
      | some y =>
          obtain ⟨⟨k', p'⟩, rest'⟩ := y
          simp only [popMin, htl] at h
          by_cases hle : p ≤ p'
          · rw [if_pos hle] at h
            cases h
            simp
          · rw [if_neg hle] at h
            cases h
            have := popMin_length_lt htl
            simp only [List.length_cons]
            omega

/-- The `while mem > self.available_memory` loop of `Chest.shrink`.
`mem` is the loop's local running estimate; each iteration pops the
least-recent heap entry, reads `data = self.inmem[key]` (a `KeyError` when
the popped key is not resident, e.g. a heap entry left stale by `flush`),
and calls `move_to_disk`, decrementing `mem` on success and swallowing only
`TypeError`.  When the heap is empty `popitem` raises.

Recursion is by a `fuel` counter so that the definition stays structural
(hence kernel-computable).  `popitem` removes one heap entry per iteration,
so `shrink` seeding `fuel` with the heap length makes the fuel-exhaustion
branch unreachable: `shrinkLoop_fuel` below proves any larger fuel gives the
same result, so the loop's meaning is fuel-independent. -/
def shrinkLoop (cfg : Config K V B) :
    Nat → Nat → ChestState K V → FS K V B → Res (ChestState K V × FS K V B) Unit
  | fuel, mem, s, fs =>
    if mem ≤ cfg.availableMemory then .ok () (s, fs)
    else
      match popMin s.heap, fuel with
      | none, _ => .err .heapEmpty (s, fs)
      | some _, 0 => .err .heapEmpty (s, fs)
      | some ((k, _p), rest), fuel' + 1 =>
          let s1 : ChestState K V := { s with heap := rest }
          match lookupA s1.inmem k with
          | none => .err .keyError (s1, fs)
          | some data =>
              match moveToDisk cfg s1 fs k with
              | .ok _ (s2, fs2) =>
                  shrinkLoop cfg fuel' (mem - cfg.nbytes data) s2 fs2
              | .err .typeError (s2, fs2) =>
                  shrinkLoop cfg fuel' mem s2 fs2
              | .err e (s2, fs2) => .err e (s2, fs2)

/-- `Chest.shrink`: return immediately when usage is strictly below the
budget, else run the eviction loop seeded with the current usage (and with
enough fuel that the loop never starves: one heap entry per iteration). -/
def shrink (cfg : Config K V B) (s : ChestState K V) (fs : FS K V B) :
    Res (ChestState K V × FS K V B) Unit :=
  let mem := memoryUsage cfg s
  if mem < cfg.availableMemory then .ok () (s, fs)
  else shrinkLoop cfg s.heap.length mem s fs

/-- `Chest.__getitem__`: a resident key returns its value directly (without
touching the recency heap); otherwise a key absent from `_keys` raises
`KeyError`, and a disk-only key is loaded, read back from `inmem`, and its
recency bumped.  In both successful branches `shrink` then runs. -/
def getItem (cfg : Config K V B) (s : ChestState K V) (fs : FS K V B)
    (k : K) : Res (ChestState K V × FS K V B) V :=
  match lookupA s.inmem k with
  | some value =>
      match shrink cfg s fs with
      | .ok _ st => .ok value st
      | .err e st => .err e st
  | none =>
      if memA s.keys k then
        match getFromDisk cfg s fs k with
        | .ok _ (s1, fs1) =>
            match lookupA s1.inmem k with
            | some value =>
                match shrink cfg (updateLru s1 k) fs1 with
                | .ok _ st => .ok value st
                | .err e st => .err e st
            | none => .err .keyError (s1, fs1)
        | .err e st => .err e st
      else .err .keyError (s, fs)

/-- `Chest.__delitem__`: drop the key from `inmem` and from the heap when
present, remove the file at the key's (recorded) path when it exists, and
finally `del self._keys[key]`, which raises `KeyError` when the key is not
in the index. -/
def delItem (cfg : Config K V B) (s : ChestState K V) (fs : FS K V B)
    (k : K) : Res (ChestState K V × FS K V B) Unit :=
  let s1 := if memA s.inmem k then { s with inmem := eraseA s.inmem k } else s
  let s2 := if memA s1.heap k then { s1 with heap := eraseA s1.heap k } else s1
  let fn := keyToFilename cfg s2 k
  let fs1 := if memA fs fn then eraseA fs fn else fs
  if memA s2.keys k then .ok () ({ s2 with keys := eraseA s2.keys k }, fs1)
  else .err .keyError (s2, fs1)

/-- `Chest.__setitem__`: an existing key is first deleted (`del self[key]`),
then the value is stored in `inmem`, the key registered in `_keys` with the
configured filename, the recency bumped, and `shrink` run. -/
def setItem (cfg : Config K V B) (s : ChestState K V) (fs : FS K V B)
    (k : K) (v : V) : Res (ChestState K V × FS K V B) Unit :=
  match (if memA s.keys k then delItem cfg s fs k else .ok () (s, fs)) with
  | .err e st => .err e st
  | .ok _ (s1, fs1) =>
      let s2 := { s1 with inmem := insertA s1.inmem k v }
      let s3 := { s2 with keys := insertA s2.keys k (cfg.ktf k) }
      match shrink cfg (updateLru s3 k) fs1 with
      | .ok _ st => .ok () st
      | .err e st => .err e st

/-- `Chest.write_keys`: overwrite the `.keys` sidecar with the serialized
list of `(key, relative filename)` pairs. -/
def writeKeys (cfg : Config K V B) (s : ChestState K V) (fs : FS K V B) :
    FS K V B :=
  insertA fs (cfg.path ++ "/" ++ ".keys") (.keyIndex s.keys)

/-- The `for key in list(self.inmem)` loop of `Chest.flush`: the keys are
snapshot up front and each is moved to disk; the first raised exception
aborts the loop. -/
def flushLoop (cfg : Config K V B) :
    List K → ChestState K V → FS K V B → Res (ChestState K V × FS K V B) Unit
  | [], s, fs => .ok () (s, fs)
  | k :: ks, s, fs =>
      match moveToDisk cfg s fs k with
      | .ok _ (s1, fs1) => flushLoop cfg ks s1 fs1
      | .err e st => .err e st

/-- `Chest.flush`: move every resident entry to disk, then persist the key
index sidecar.  A serialization failure propagates and `write_keys` is then
never reached. -/
def flush (cfg : Config K V B) (s : ChestState K V) (fs : FS K V B) :
    Res (ChestState K V × FS K V B) Unit :=
  match flushLoop cfg (s.inmem.map Prod.fst) s fs with
  | .ok _ (s1, fs1) => .ok () (s1, writeKeys cfg s1 fs1)
  | .err e st => .err e st

/-- The per-key tail of the `Chest.update` loop body: compute `old_fn` from
`other` before registering the key, register `self._keys[key]`, compute
`new_fn` from the now-recorded entry, and `os.link(old_fn, new_fn)` — which
raises `FileNotFoundError` when `old_fn` does not exist and
`FileExistsError` when `new_fn` already does, and otherwise makes `new_fn` a
second name for `old_fn`'s content. -/
def updateLink (cfgS : Config K V B) (cfgO : Config K V B)
    (other : ChestState K V) (k : K) (s : ChestState K V) (fs : FS K V B) :
    Res (ChestState K V × FS K V B) Unit :=
  let oldFn := keyToFilename cfgO other k
  let s1 := { s with keys := insertA s.keys k (cfgS.ktf k) }
  let newFn := keyToFilename cfgS s1 k
  match lookupA fs oldFn with
  | none => .err .ioError (s1, fs)
  | some d =>
      if memA fs newFn then .err .ioError (s1, fs)
      else .ok () (s1, insertA fs newFn d)

/-- The `for key in other._keys` loop of `Chest.update`, for a destination
distinct from the source (`other`'s state is never mutated by the loop).
With `overwrite` an existing destination key is deleted first and then
linked; without it an existing key is skipped; a fresh key is linked. -/
def updateLoop (cfgS : Config K V B) (cfgO : Config K V B)
    (other : ChestState K V) (ov : Bool) :
    List K → ChestState K V → FS K V B → Res (ChestState K V × FS K V B) Unit
  | [], s, fs => .ok () (s, fs)
  | k :: ks, s, fs =>
      if memA s.keys k && ov then
        match delItem cfgS s fs k with
        | .ok _ (s1, fs1) =>
            match updateLink cfgS cfgO other k s1 fs1 with
            | .ok _ (s2, fs2) => updateLoop cfgS cfgO other ov ks s2 fs2
            | .err e st => .err e st
        | .err e st => .err e st
      else if memA s.keys k && !ov then updateLoop cfgS cfgO other ov ks s fs
      else
        match updateLink cfgS cfgO other k s fs with
        | .ok _ (s2, fs2) => updateLoop cfgS cfgO other ov ks s2 fs2
        | .err e st => .err e st

/-- `Chest.update(other, overwrite)` for `other` a different store: flush
both stores, then run the per-key loop over `other`'s key index. -/
def update (cfgS : Config K V B) (cfgO : Config K V B)
    (s other : ChestState K V) (fs : FS K V B) (ov : Bool) :
    Res (ChestState K V × ChestState K V × FS K V B) Unit :=
  match flush cfgS s fs with
  | .err e (s', fs') => .err e (s', other, fs')
  | .ok _ (s', fs') =>
      match flush cfgO other fs' with
      | .err e (o', fs2) => .err e (s', o', fs2)
      | .ok _ (o', fs2) =>
          match updateLoop cfgS cfgO o' ov (o'.keys.map Prod.fst) s' fs2 with
          | .ok _ (s2, fs3) => .ok () (s2, o', fs3)
          | .err e (s2, fs3) => .err e (s2, o', fs3)

/-- The `Chest.update` loop specialized to `other is self` (the two
parameters alias one object): every read of `other` sees the current,
already-mutated state.  The key list is the snapshot at loop entry; CPython
iteration over a dict mutated mid-loop is unspecified, but in the aliased
runs proved below the loop raises already at its first iteration (or, when
nothing is overwritten, never mutates), so the snapshot is exact. -/
def updateAliasedLoop (cfg : Config K V B) (ov : Bool) :
    List K → ChestState K V → FS K V B → Res (ChestState K V × FS K V B) Unit
  | [], s, fs => .ok () (s, fs)
  | k :: ks, s, fs =>
      if memA s.keys k && ov then
        match delItem cfg s fs k with
        | .ok _ (s1, fs1) =>
            match updateLink cfg cfg s1 k s1 fs1 with
            | .ok _ (s2, fs2) => updateAliasedLoop cfg ov ks s2 fs2
            | .err e st => .err e st
        | .err e st => .err e st
      else if memA s.keys k && !ov then updateAliasedLoop cfg ov ks s fs
      else
        match updateLink cfg cfg s k s fs with
        | .ok _ (s2, fs2) => updateAliasedLoop cfg ov ks s2 fs2
        | .err e st => .err e st

/-- `Chest.update(other, overwrite)` with `other is self`: `self.flush()`
runs twice (the second pass finds `inmem` empty and only rewrites the
sidecar), then the loop runs over the store's own keys. -/
def updateAliased (cfg : Config K V B) (s : ChestState K V) (fs : FS K V B)
    (ov : Bool) : Res (ChestState K V × FS K V B) Unit :=
  match flush cfg s fs with
  | .err e st => .err e st
  | .ok _ (s1, fs1) =>
      match flush cfg s1 fs1 with
      | .err e st => .err e st
      | .ok _ (s2, fs2) =>
          updateAliasedLoop cfg ov (s2.keys.map Prod.fst) s2 fs2

/-! ## The module-level default `key_to_filename` -/

mutual

/-- Python keys as used with the default filename mapping: strings, ints,
and tuples of keys (`PyKeyList` is the tuple's component list, kept as a
mutual inductive so that recursion over keys stays structural). -/
inductive PyKey : Type
  | str : String → PyKey
  | int : Int → PyKey
  | tup : PyKeyList → PyKey

/-- A list of Python keys, the components of a tuple key. -/
inductive PyKeyList : Type
  | nil : PyKeyList
  | cons : PyKey → PyKeyList → PyKeyList

end

mutual

def pyKeyDecEq : (a b : PyKey) → Decidable (a = b)
  | .str s, .str t =>
      match decEq s t with
      | isTrue h => isTrue (by rw [h])
      | isFalse h => isFalse (by intro he; cases he; exact h rfl)
  | .str _, .int _ => isFalse nofun
  | .str _, .tup _ => isFalse nofun
  | .int _, .str _ => isFalse nofun
  | .int m, .int n =>
      match decEq m n with
      | isTrue h => isTrue (by rw [h])
      | isFalse h => isFalse (by intro he; cases he; exact h rfl)
  | .int _, .tup _ => isFalse nofun
  | .tup _, .str _ => isFalse nofun
  | .tup _, .int _ => isFalse nofun
  | .tup xs, .tup ys =>
      match pyKeyListDecEq xs ys with
      | isTrue h => isTrue (by rw [h])
      | isFalse h => isFalse (by intro he; cases he; exact h rfl)

def pyKeyListDecEq : (a b : PyKeyList) → Decidable (a = b)
  | .nil, .nil => isTrue rfl
  | .nil, .cons _ _ => isFalse nofun
  | .cons _ _, .nil => isFalse nofun
  | .cons x xs, .cons y ys =>
      match pyKeyDecEq x y, pyKeyListDecEq xs ys with
      | isTrue h1, isTrue h2 => isTrue (by rw [h1, h2])
      | isFalse h1, _ => isFalse (by intro he; cases he; exact h1 rfl)
      | _, isFalse h2 => isFalse (by intro he; cases he; exact h2 rfl)

end

instance : DecidableEq PyKey := pyKeyDecEq

instance : DecidableEq PyKeyList := pyKeyListDecEq

/-- One character of `\w` in the pattern `^[_a-zA-Z]\w*$` (the claims only
involve ASCII keys, so the ASCII reading of `\w` is exact here). -/
def isWordChar (c : Char) : Bool :=
  c = '_' || c.isAlpha || c.isDigit

/-- `re.match('^[_a-zA-Z]\w*$', s)` as a Boolean. -/
def isIdentifier (s : String) : Bool :=
  match s.data with
  | [] => false
  | c :: cs => (c = '_' || c.isAlpha) && cs.all isWordChar

mutual

/-- The module-level default `key_to_filename` (`core.py` lines 16-29):
identifier-like strings map to themselves, tuples map to a nested path with
every leading component prefixed by an underscore, and anything else maps to
`md5hex(str(key))`.  `md5hex` stands in for the external
`hashlib.md5(...).hexdigest()`; a non-identifier string `s` has `str(s) = s`
and an int `n` has `str(n)` its decimal form, which is all the digest is
applied to.  (An empty tuple would raise `IndexError` at `key[-1]` in
Python; it is never used below.) -/
def keyToFilenameDefault (md5hex : String → String) : PyKey → String
  | .str s => if isIdentifier s then s else md5hex s
  | .int n => md5hex (toString n)
  | .tup ks => tupPath md5hex ks

/-- `os.path.join` of `['_' + f(k) for k in key[:-1]] + [f(key[-1])]`. -/
def tupPath (md5hex : String → String) : PyKeyList → String
  | .nil => ""
  | .cons k .nil => keyToFilenameDefault md5hex k
  | .cons k (.cons k' ks) =>
      "_" ++ keyToFilenameDefault md5hex k ++ "/" ++ tupPath md5hex (.cons k' ks)

end

/-! ## Traces of public operations -/

/-- One public mutating/reading operation on a store. -/
inductive Op (K V : Type) : Type
  | setOp : K → V → Op K V
  | getOp : K → Op K V
  | delOp : K → Op K V
  | flushOp : Op K V
  deriving DecidableEq

variable {K V B : Type} [DecidableEq K]

/-- Execute one operation (the value a `get` returns is dropped; traces
observe values through `getValue` below). -/
def runOp (cfg : Config K V B) (op : Op K V) (st : ChestState K V × FS K V B) :
    Res (ChestState K V × FS K V B) Unit :=
  match op with
  | .setOp k v => setItem cfg st.1 st.2 k v
  | .getOp k =>
      match getItem cfg st.1 st.2 k with
      | .ok _ st' => .ok () st'
      | .err e st' => .err e st'
  | .delOp k => delItem cfg st.1 st.2 k
  | .flushOp => flush cfg st.1 st.2

/-- Execute a trace left to right, stopping at the first raised exception. -/
def run (cfg : Config K V B) :
    List (Op K V) → ChestState K V × FS K V B → Res (ChestState K V × FS K V B) Unit
  | [], st => .ok () st
  | op :: ops, st =>
      match runOp cfg op st with
      | .ok _ st' => run cfg ops st'
      | .err e st' => .err e st'

/-- The plain-dictionary meaning of one operation: `set` binds, `delete`
unbinds, `get` and `flush` read only. -/
def specStep : Op K V → List (K × V) → List (K × V)
  | .setOp k v, m => insertA m k v
  | .delOp k, m => eraseA m k
  | .getOp _, m => m
  | .flushOp, m => m

/-- The plain-dictionary meaning of a trace. -/
def specRun : List (Op K V) → List (K × V) → List (K × V)
  | [], m => m
  | op :: ops, m => specRun ops (specStep op m)

/-- Did the call return normally? -/
def Res.isOk {σ α : Type} : Res σ α → Bool
  | .ok _ _ => true
  | .err _ _ => false

/-- The exception a call raised, if any. -/
def Res.errOf {σ α : Type} : Res σ α → Option PyError
  | .ok _ _ => none
  | .err e _ => some e

/-- The state a call returned normally with, if any. -/
def Res.okState {σ α : Type} : Res σ α → Option σ
  | .ok _ st => some st
  | .err _ _ => none

/-- The value `chest[k]` returns, `none` when the call raises. -/
def getValue (cfg : Config K V B) (s : ChestState K V) (fs : FS K V B)
    (k : K) : Option V :=
  match getItem cfg s fs k with
  | .ok v _ => some v
  | .err _ _ => none

/-- State after running a trace from a freshly constructed empty store in a
fresh directory, `none` when some operation raises. -/
def runFromInit (cfg : Config K V B) (ops : List (Op K V)) :
    Option (ChestState K V × FS K V B) :=
  (run cfg ops (chestInit [], [])).okState

/-- The value `chest[k]` returns after a trace from a fresh empty store. -/
def getAfter (cfg : Config K V B) (ops : List (Op K V)) (k : K) : Option V :=
  (runFromInit cfg ops).bind fun st => getValue cfg st.1 st.2 k

end ChestModel

/-! ## Association-list lemmas -/

namespace ChestModel

variable {K V : Type} [DecidableEq K]

@[simp] theorem lookupA_nil (k : K) : lookupA ([] : List (K × V)) k = none := rfl

theorem lookupA_cons (k k' : K) (v : V) (l : List (K × V)) :
    lookupA ((k', v) :: l) k = if k = k' then some v else lookupA l k := rfl

@[simp] theorem lookupA_insertA_self (l : List (K × V)) (k : K) (v : V) :
    lookupA (insertA l k v) k = some v := by
  induction l with
  | nil => simp [insertA, lookupA]
  | cons hd tl ih =>
      obtain ⟨k', v'⟩ := hd
      by_cases h : k = k'
      · simp [insertA, h, lookupA]
      · simp [insertA, h, lookupA, ih]

theorem lookupA_insertA_ne (l : List (K × V)) {k k' : K} (v : V)
    (h : k ≠ k') : lookupA (insertA l k' v) k = lookupA l k := by
  induction l with
  | nil => simp [insertA, lookupA, h]
  | cons hd tl ih =>
      obtain ⟨k2, v2⟩ := hd
      by_cases h2 : k' = k2
      · subst h2; simp [insertA, lookupA, h]
      · by_cases h3 : k = k2 <;> simp [insertA, lookupA, h2, h3, ih]

theorem lookupA_eraseA_ne (l : List (K × V)) {k k' : K}
    (h : k ≠ k') : lookupA (eraseA l k') k = lookupA l k := by
  induction l with
  | nil => simp [eraseA]
  | cons hd tl ih =>
      obtain ⟨k2, v2⟩ := hd
      by_cases h2 : k' = k2
      · subst h2; simp [eraseA, lookupA, h]
      · by_cases h3 : k = k2 <;> simp [eraseA, lookupA, h2, h3, ih]

/-- Keys of an association list. -/
def keysOf (l : List (K × V)) : List K := l.map Prod.fst

theorem lookupA_eq_none_of_not_mem (l : List (K × V)) (k : K)
    (h : k ∉ keysOf l) : lookupA l k = none := by
  induction l with
  | nil => rfl
  | cons hd tl ih =>
      obtain ⟨k2, v2⟩ := hd
      simp only [keysOf, List.map_cons, List.mem_cons] at h
      push_neg at h
      rw [lookupA_cons, if_neg h.1]
      exact ih (by simpa [keysOf] using h.2)

theorem mem_keysOf_of_lookupA {l : List (K × V)} {k : K} {v : V}
    (h : lookupA l k = some v) : k ∈ keysOf l := by
  induction l with
  | nil => simp [lookupA] at h
  | cons hd tl ih =>
      obtain ⟨k2, v2⟩ := hd
      rw [lookupA_cons] at h
      by_cases h2 : k = k2
      · subst h2; simp [keysOf]
      · rw [if_neg h2] at h
        simp [keysOf, ih h]
        right
        simpa [keysOf] using ih h

theorem lookupA_eraseA_self (l : List (K × V)) (k : K)
    (h : (keysOf l).Nodup) : lookupA (eraseA l k) k = none := by
  induction l with
  | nil => simp [eraseA]
  | cons hd tl ih =>
      obtain ⟨k2, v2⟩ := hd
      simp only [keysOf, List.map_cons, List.nodup_cons] at h
      by_cases h2 : k = k2
      · subst h2
        simp only [eraseA, if_pos rfl]
        exact lookupA_eq_none_of_not_mem tl k (by simpa [keysOf] using h.1)
      · rw [show eraseA ((k2, v2) :: tl) k = (k2, v2) :: eraseA tl k by
            simp [eraseA, h2]]
        rw [lookupA_cons, if_neg h2]
        exact ih h.2

@[simp] theorem memA_nil (k : K) : memA ([] : List (K × V)) k = false := rfl

theorem memA_iff_lookupA (l : List (K × V)) (k : K) :
    memA l k = true ↔ ∃ v, lookupA l k = some v := by
  unfold memA
  cases lookupA l k <;> simp

theorem memA_false_iff (l : List (K × V)) (k : K) :
    memA l k = false ↔ lookupA l k = none := by
  unfold memA
  cases lookupA l k <;> simp

theorem keysOf_insertA (l : List (K × V)) (k : K) (v : V) :
    ∀ k', k' ∈ keysOf (insertA l k v) ↔ (k' ∈ keysOf l ∨ k' = k) := by
  intro k'
  induction l with
  | nil => simp [insertA, keysOf]
  | cons hd tl ih =>
      obtain ⟨k2, v2⟩ := hd
      by_cases h2 : k = k2
      · subst h2; simp [insertA, keysOf]; tauto
      · simp only [insertA, if_neg h2, keysOf, List.map_cons, List.mem_cons]
        rw [keysOf] at ih
        tauto

theorem nodup_keysOf_insertA (l : List (K × V)) (k : K) (v : V)
    (h : (keysOf l).Nodup) : (keysOf (insertA l k v)).Nodup := by
  induction l with
  | nil => simp [insertA, keysOf]
  | cons hd tl ih =>
      obtain ⟨k2, v2⟩ := hd
      simp only [keysOf, List.map_cons, List.nodup_cons] at h
      by_cases h2 : k = k2
      · subst h2
        rw [show insertA ((k, v2) :: tl) k v = (k, v) :: tl by simp [insertA]]
        simp only [keysOf, List.map_cons, List.nodup_cons]
        exact h
      · rw [show insertA ((k2, v2) :: tl) k v = (k2, v2) :: insertA tl k v by
            simp [insertA, h2]]
        simp only [keysOf, List.map_cons, List.nodup_cons]
        refine ⟨fun hm => ?_, ih h.2⟩
        have := (keysOf_insertA tl k v k2).mp (by simpa [keysOf] using hm)
        rcases this with hm' | hm'
        · exact h.1 (by simpa [keysOf] using hm')
        · exact h2 hm'.symm

theorem keysOf_eraseA_sub (l : List (K × V)) (k : K) :
    ∀ k', k' ∈ keysOf (eraseA l k) → k' ∈ keysOf l := by
  intro k'
  induction l with
  | nil => simp [eraseA]
  | cons hd tl ih =>
      obtain ⟨k2, v2⟩ := hd
      by_cases h2 : k = k2
      · subst h2; simp [eraseA, keysOf]; tauto
      · simp only [eraseA, if_neg h2, keysOf, List.map_cons, List.mem_cons]
        rw [keysOf] at ih
        tauto

theorem nodup_keysOf_eraseA (l : List (K × V)) (k : K)
    (h : (keysOf l).Nodup) : (keysOf (eraseA l k)).Nodup := by
  induction l with
  | nil => simp [eraseA, keysOf]
  | cons hd tl ih =>
      obtain ⟨k2, v2⟩ := hd
      simp only [keysOf, List.map_cons, List.nodup_cons] at h
      by_cases h2 : k = k2
      · subst h2; simpa [eraseA, keysOf] using h.2
      · simp only [eraseA, if_neg h2, keysOf, List.map_cons, List.nodup_cons]
        exact ⟨fun hm => h.1 (keysOf_eraseA_sub tl k _ hm), ih h.2⟩

/-- Erasing the binding that `lookupA` finds removes exactly its bytes from
the footprint (both erase and lookup act on the first binding of `k`). -/
theorem sum_map_eraseA (f : V → Nat) (l : List (K × V)) {k : K} {v : V}
    (h : lookupA l k = some v) :
    ((eraseA l k).map (fun kv => f kv.2)).sum + f v =
      (l.map (fun kv => f kv.2)).sum := by
  induction l with
  | nil => simp [lookupA] at h
  | cons hd tl ih =>
      obtain ⟨k2, v2⟩ := hd
      rw [lookupA_cons] at h
      by_cases h2 : k = k2
      · rw [if_pos h2] at h
        cases h
        simp [eraseA, h2]
        omega
      · rw [if_neg h2] at h
        rw [show eraseA ((k2, v2) :: tl) k = (k2, v2) :: eraseA tl k by
            simp [eraseA, h2]]
        simp only [List.map_cons, List.sum_cons]
        have := ih h
        omega

end ChestModel

/-! ## Characterization of the eviction path, and the budget property -/

namespace ChestModel

variable {K V B : Type} [DecidableEq K]

/-- A successful `move_to_disk` removes exactly the key from `inmem` and
touches nothing else in the store state. -/
theorem moveToDisk_ok {cfg : Config K V B} {s : ChestState K V}
    {fs : FS K V B} {k : K} {s' : ChestState K V} {fs' : FS K V B}
    (h : moveToDisk cfg s fs k = .ok () (s', fs')) :
    s' = { s with inmem := eraseA s.inmem k } := by
  unfold moveToDisk at h
  by_cases hex : memA fs (keyToFilename cfg s k)
  · rw [if_pos hex] at h
    by_cases hm : memA s.inmem k
    · rw [if_pos hm] at h; cases h; rfl
    · rw [if_neg hm] at h; cases h
  · rw [if_neg hex] at h
    cases hl : lookupA s.inmem k with
    | none => rw [hl] at h; cases h
    | some v =>
        rw [hl] at h
        simp only at h
        cases hd : cfg.dump v with
        | none => rw [hd] at h; cases h
        | some b => rw [hd] at h; cases h; rfl

/-- A `move_to_disk` that raises `TypeError` (unserializable value) leaves
both the store state and the file system exactly as they were: the partial
file has been removed. -/
theorem moveToDisk_typeError {cfg : Config K V B} {s : ChestState K V}
    {fs : FS K V B} {k : K} {st : ChestState K V × FS K V B}
    (h : moveToDisk cfg s fs k = .err .typeError st) : st = (s, fs) := by
  unfold moveToDisk at h
  by_cases hex : memA fs (keyToFilename cfg s k)
  · rw [if_pos hex] at h
    by_cases hm : memA s.inmem k
    · rw [if_pos hm] at h; cases h
    · rw [if_neg hm] at h; cases h
  · rw [if_neg hex] at h
    cases hl : lookupA s.inmem k with
    | none => rw [hl] at h; cases h
    | some v =>
        rw [hl] at h
        simp only at h
        cases hd : cfg.dump v with
        | none => rw [hd] at h; cases h; rfl
        | some b => rw [hd] at h; cases h

/-- When the eviction loop returns normally its running estimate was exact,
so the store is within budget. -/
theorem shrinkLoop_ok_mem {cfg : Config K V B} :
    ∀ (fuel mem : Nat) (s : ChestState K V) (fs : FS K V B)
      (s' : ChestState K V) (fs' : FS K V B),
      mem = memoryUsage cfg s →
      shrinkLoop cfg fuel mem s fs = .ok () (s', fs') →
      memoryUsage cfg s' ≤ cfg.availableMemory := by
  intro fuel
  induction fuel with
  | zero =>
      intro mem s fs s' fs' hmem h
      rw [shrinkLoop.eq_def] at h
      simp only at h
      by_cases hle : mem ≤ cfg.availableMemory
      · rw [if_pos hle] at h; cases h; omega
      · rw [if_neg hle] at h
        cases hpop : popMin s.heap with
        | none => simp [hpop] at h
        | some x => simp [hpop] at h
  | succ fuel' ih =>
      intro mem s fs s' fs' hmem h
      rw [shrinkLoop.eq_def] at h
      simp only at h
      by_cases hle : mem ≤ cfg.availableMemory
      · rw [if_pos hle] at h; cases h; omega
      · rw [if_neg hle] at h
        cases hpop : popMin s.heap with
        | none => simp [hpop] at h
        | some x =>
            obtain ⟨⟨k, p⟩, rest⟩ := x
            rw [hpop] at h
            simp only at h
            cases hl : lookupA ({ s with heap := rest } : ChestState K V).inmem k with
            | none => rw [hl] at h; cases h
            | some data =>
                rw [hl] at h
                cases hmv : moveToDisk cfg { s with heap := rest } fs k with
                | ok u st2 =>
                    obtain ⟨s2, fs2⟩ := st2
                    rw [hmv] at h
                    refine ih _ s2 fs2 s' fs' ?_ h
                    have hst := moveToDisk_ok hmv
                    subst hst
                    have hsum := sum_map_eraseA cfg.nbytes
                      ({ s with heap := rest } : ChestState K V).inmem hl
                    simp only [memoryUsage] at hmem ⊢
                    simp only at hsum
                    omega
                | err e st2 =>
                    obtain ⟨s2, fs2⟩ := st2
                    rw [hmv] at h
                    cases e with
                    | typeError =>
                        have hst := moveToDisk_typeError hmv
                        cases hst
                        refine ih _ _ _ s' fs' ?_ h
                        simpa [memoryUsage] using hmem
                    | keyError => cases h
                    | heapEmpty => cases h
                    | ioError => cases h

/-- When `shrink` returns normally the store is within budget. -/
theorem shrink_ok_mem {cfg : Config K V B} {s : ChestState K V}
    {fs : FS K V B} {s' : ChestState K V} {fs' : FS K V B}
    (h : shrink cfg s fs = .ok () (s', fs')) :
    memoryUsage cfg s' ≤ cfg.availableMemory := by
  unfold shrink at h
  by_cases hlt : memoryUsage cfg s < cfg.availableMemory
  · rw [if_pos hlt] at h; cases h; omega
  · rw [if_neg hlt] at h
    exact shrinkLoop_ok_mem _ _ s fs s' fs' rfl h

end ChestModel

/-! ## Concrete configurations and states used by witnesses -/

namespace ChestModel

/-- A simple concrete store: `String` keys and values, identity filename
mapping, identity (always successful) codec, unit sizes, budget 1000. -/
def cfgStr : Config String String String :=
  { path := "c", availableMemory := 1000, dump := fun v => some v,
    load := fun b => b, nbytes := fun _ => 1, ktf := fun k => k }

/-- A store whose codec can serialize nothing, with budget 0: every value is
pinned and over budget. -/
def cfgNoDump : Config String String String :=
  { path := "c", availableMemory := 0, dump := fun _ => none,
    load := fun b => b, nbytes := fun _ => 10, ktf := fun k => k }

/-- A store with budget 0 and a working codec: every `set`/disk `get`
immediately evicts everything evictable. -/
def cfgTight : Config String String String :=
  { path := "c", availableMemory := 0, dump := fun v => some v,
    load := fun b => b, nbytes := fun _ => 10, ktf := fun k => k }

/-- A stand-in for `hashlib.md5(...).hexdigest()`; the theorems that use it
only rely on its being a function of its `String` input. -/
def md5hexModel (s : String) : String := "md5_" ++ s

/-- A store over Python keys using the repository's default
`key_to_filename`, budget 0. -/
def cfgPy : Config PyKey String String :=
  { path := "c", availableMemory := 0, dump := fun v => some v,
    load := fun b => b, nbytes := fun _ => 10,
    ktf := keyToFilenameDefault md5hexModel }

/-- A store whose values are `Option String` and whose codec is the
identity on those: `none` is exactly the unserializable value. -/
def cfgOpt : Config String (Option String) String :=
  { path := "c", availableMemory := 1000, dump := fun v => v,
    load := fun b => some b, nbytes := fun _ => 1, ktf := fun k => k }

/-- A store state with one resident key `x`, recency entry 1, clock 5. -/
def sResident : ChestState String String :=
  { inmem := [("x", "v")], keys := [("x", "x")], heap := [("x", 1)],
    counter := 5 }

end ChestModel

/-! ## C2: what a normally returning get/set guarantees -/

namespace ChestModel

variable {K V B : Type} [DecidableEq K]

/-- **C2** (amended): the claim promises that every `get`/`set` returns
normally with usage within budget or every resident key pinned.  What the
code guarantees is: a `get` or `set` call that returns normally leaves
`memory_usage ≤ available_memory`; but when the eviction loop runs out of
heap candidates while still over budget (for instance because the remaining
resident values are pinned), the call raises out of `heapdict.popitem`
instead of returning — see the counterexample. -/
theorem c2_normal_return_within_budget (cfg : Config K V B) :
    (∀ (s : ChestState K V) (fs : FS K V B) (k : K) (v : V)
       (s' : ChestState K V) (fs' : FS K V B),
       setItem cfg s fs k v = .ok () (s', fs') →
       memoryUsage cfg s' ≤ cfg.availableMemory) ∧
    (∀ (s : ChestState K V) (fs : FS K V B) (k : K) (value : V)
       (s' : ChestState K V) (fs' : FS K V B),
       getItem cfg s fs k = .ok value (s', fs') →
       memoryUsage cfg s' ≤ cfg.availableMemory) := by
  constructor
  · intro s fs k v s' fs' h
    unfold setItem at h
    split at h
    · cases h
    · simp only at h
      split at h
      next u2 st2 hsh =>
        cases h
        cases u2
        exact shrink_ok_mem hsh
      next => cases h
  · intro s fs k value s' fs' h
    unfold getItem at h
    split at h
    · split at h
      next u2 st2 hsh =>
        cases h
        cases u2
        exact shrink_ok_mem hsh
      next => cases h
    · split at h
      · split at h
        · split at h
          · split at h
            next u2 st2 hsh =>
              cases h
              cases u2
              exact shrink_ok_mem hsh
            next => cases h
          · cases h
        · cases h
      · cases h

/-- Witness for `c2_normal_return_within_budget`: one concrete normally
returning `set` and one concrete normally returning `get`. -/
theorem c2_normal_return_within_budget_witness :
    memoryUsage cfgStr
        { inmem := [("x", "v")], keys := [("x", "x")], heap := [("x", 1)],
          counter := 1 } ≤ cfgStr.availableMemory ∧
    memoryUsage cfgStr sResident ≤ cfgStr.availableMemory :=
  ⟨(c2_normal_return_within_budget cfgStr).1 (chestInit []) [] "x" "v"
      { inmem := [("x", "v")], keys := [("x", "x")], heap := [("x", 1)],
        counter := 1 } [] (by decide),
   (c2_normal_return_within_budget cfgStr).2 sResident [] "x" "v"
      sResident [] (by decide)⟩

/-- Counterexample to C2 as stated: with budget 0, a single `set` of an
unserializable value raises (`heapdict.popitem` on an emptied heap) instead
of returning normally — the promised
"shrink stops rather than failing" does not hold. -/
theorem c2_counterexample :
    (setItem cfgNoDump (chestInit []) [] "x" "v").errOf
      = some PyError.heapEmpty := by decide

end ChestModel

/-! ## C3: does a resident get bump recency? -/

namespace ChestModel

variable {K V B : Type} [DecidableEq K]

/-- **C3** (amended): a `get` of a resident key returns the value but does
NOT bump the key's recency entry — only the load-from-disk branch calls
`_update_lru`.  When the store is within budget (so the trailing `shrink`
pass returns at once) the call changes nothing at all. -/
theorem c3_resident_get_no_bump (cfg : Config K V B) (s : ChestState K V)
    (fs : FS K V B) (k : K) (v : V)
    (hres : lookupA s.inmem k = some v)
    (hmem : memoryUsage cfg s < cfg.availableMemory) :
    getItem cfg s fs k = .ok v (s, fs) := by
  unfold getItem
  rw [hres]
  simp only [shrink]
  rw [if_pos hmem]

/-- Witness for `c3_resident_get_no_bump`. -/
theorem c3_resident_get_no_bump_witness :
    getItem cfgStr sResident [] "x" = .ok "v" (sResident, []) :=
  c3_resident_get_no_bump cfgStr sResident [] "x" "v" (by decide) (by decide)

/-- Counterexample to C3 as stated: a resident `get` whose result state is
the unchanged input state, whose heap entry for the key is still its old
priority 1 and not the next clock value `counter + 1`. -/
theorem c3_counterexample :
    (getItem cfgStr sResident [] "x").okState = some (sResident, []) ∧
    lookupA sResident.heap "x" = some 1 ∧
    sResident.counter = 5 ∧
    lookupA sResident.heap "x" ≠ some (sResident.counter + 1) := by decide

end ChestModel

/-! ## C5: merging a store into itself -/

namespace ChestModel

/-- The store state after `c['x'] = v; c.flush()` on a fresh `cfgStr`
store: nothing resident, `x` indexed, a stale heap entry (flush does not
clear the heap). -/
def sFlushedX : ChestState String String :=
  { inmem := [], keys := [("x", "x")], heap := [("x", 1)], counter := 1 }

/-- The matching file system: the value file and the `.keys` sidecar. -/
def fsFlushedX (v : String) : FS String String String :=
  [("c/x", FileData.val v), ("c/.keys", FileData.keyIndex [("x", "x")])]

/-- **C5** (amended): `update` performs no self-merge check at all.  On a
single-key flushed store, `c.update(c, overwrite=False)` completes as a
silent no-op; `c.update(c, overwrite=True)` first deletes the key's file
(inside `del self[key]`) and then raises `FileNotFoundError` from
`os.link`, losing the key's data — there is no usage error surfaced before
hard-linking, and the store is not left unchanged. -/
theorem c5_self_merge_not_rejected (v : String) :
    run cfgStr [Op.setOp "x" v, Op.flushOp] (chestInit [], [])
      = .ok () (sFlushedX, fsFlushedX v) ∧
    updateAliased cfgStr sFlushedX (fsFlushedX v) false
      = .ok () (sFlushedX, fsFlushedX v) ∧
    updateAliased cfgStr sFlushedX (fsFlushedX v) true
      = .err .ioError
          ({ inmem := [], keys := [("x", "x")], heap := [], counter := 1 },
           [("c/.keys", FileData.keyIndex [("x", "x")])]) :=
  ⟨rfl, rfl, rfl⟩

/-- Counterexample to C5 as stated: self-merge is not "rejected as a usage
error before any hard-linking begins, leaving the index and files
unchanged".  With `overwrite=False` the call simply succeeds (no error);
with `overwrite=True` it raises only from the attempted `os.link`, and the
resulting file system has lost the key's file (`c/x` is gone). -/
theorem c5_counterexample :
    (updateAliased cfgStr sFlushedX (fsFlushedX "one") false).isOk = true ∧
    updateAliased cfgStr sFlushedX (fsFlushedX "one") true
      = .err .ioError
          ({ inmem := [], keys := [("x", "x")], heap := [], counter := 1 },
           [("c/.keys", FileData.keyIndex [("x", "x")])]) ∧
    lookupA [("c/.keys",
        (FileData.keyIndex [("x", "x")] : FileData String String String))]
      "c/x" = none := by decide

end ChestModel

/-! ## C6: flush against an unserializable value -/

namespace ChestModel

/-- Two resident values with the unserializable one (`none`) first in
`inmem`'s insertion order. -/
def sBadFirst (g : String) : ChestState String (Option String) :=
  { inmem := [("bad", none), ("good", some g)],
    keys := [("bad", "bad"), ("good", "good")],
    heap := [("bad", 1), ("good", 2)], counter := 2 }

/-- The same two values with the serializable one first. -/
def sGoodFirst (g : String) : ChestState String (Option String) :=
  { inmem := [("good", some g), ("bad", none)],
    keys := [("good", "good"), ("bad", "bad")],
    heap := [("good", 1), ("bad", 2)], counter := 2 }

/-- **C6** (amended): `flush` propagates the codec's `TypeError`, but it is
not best-effort: the per-key loop aborts at the first failing key, so keys
earlier in `inmem`'s insertion order are written and keys after it are not,
and `write_keys` is never reached — the `.keys` sidecar is not persisted.
With the failing key first nothing at all is written; with it last the
serializable key's file is written but the sidecar still is not. -/
theorem c6_flush_aborts_at_failure (g : String) :
    flush cfgOpt (sBadFirst g) [] = .err .typeError (sBadFirst g, []) ∧
    flush cfgOpt (sGoodFirst g) [] =
      .err .typeError
        ({ inmem := [("bad", none)],
           keys := [("good", "good"), ("bad", "bad")],
           heap := [("good", 1), ("bad", 2)], counter := 2 },
         [("c/good", FileData.val g)]) :=
  ⟨rfl, rfl⟩

/-- Counterexample to C6 as stated: with the unserializable value first in
iteration order, `flush` raises and the resulting file system is empty —
the serializable resident key `good` was never written and the `.keys`
sidecar was never persisted, refuting "every other serializable resident
key is still written to disk and the key index sidecar is still
persisted". -/
theorem c6_counterexample :
    flush cfgOpt (sBadFirst "g") [] = .err .typeError (sBadFirst "g", []) ∧
    lookupA ([] : FS String (Option String) String) "c/good" = none ∧
    lookupA ([] : FS String (Option String) String) "c/.keys" = none := by
  decide

end ChestModel

/-! ## C9: delete -/

namespace ChestModel

variable {K V B : Type} [DecidableEq K]

/-- `__delitem__` in sequential form: the conditional erasures of the first
three statements, then the index removal or the `KeyError`. -/
theorem delItem_eq (cfg : Config K V B) (s : ChestState K V) (fs : FS K V B)
    (k : K) :
    delItem cfg s fs k =
      (let s2 : ChestState K V :=
         { inmem := if memA s.inmem k then eraseA s.inmem k else s.inmem,
           keys := s.keys,
           heap := if memA s.heap k then eraseA s.heap k else s.heap,
           counter := s.counter }
       let fn := keyToFilename cfg s k
       let fs1 := if memA fs fn then eraseA fs fn else fs
       if memA s.keys k then .ok () ({ s2 with keys := eraseA s.keys k }, fs1)
       else .err .keyError (s2, fs1)) := by
  unfold delItem
  by_cases h1 : memA s.inmem k <;> by_cases h2 : memA s.heap k <;>
    simp [h1, h2, keyToFilename]

/-- Under the recorded-filename condition the key's absolute path is the
configured mapping applied to the key, whatever `_keys` holds. -/
theorem keyToFilename_of_rec {cfg : Config K V B} {s : ChestState K V}
    {k : K} (hrec : memA s.keys k = true → lookupA s.keys k = some (cfg.ktf k)) :
    keyToFilename cfg s k = cfg.path ++ "/" ++ cfg.ktf k := by
  unfold keyToFilename
  cases hl : lookupA s.keys k with
  | none => rfl
  | some fn0 =>
      have : memA s.keys k = true := by unfold memA; rw [hl]; rfl
      rw [hrec this] at hl
      cases hl
      rfl

/-- **C9**: `delete(key)` raises exactly when the key is absent from the
key index; when present, the call removes the key from the resident table,
the recency heap and the index, and leaves no file at the key's path — so
afterwards `containsKey` is false and the path is empty.  The hypotheses
say the store's dicts have no duplicate bindings and the recorded filename
for `k` (if any) is the configured mapping's output, as holds for every
store the operations build. -/
theorem c9_delete_spec (cfg : Config K V B) (s : ChestState K V)
    (fs : FS K V B) (k : K)
    (hni : (keysOf s.inmem).Nodup) (hnh : (keysOf s.heap).Nodup)
    (hnk : (keysOf s.keys).Nodup) (hnf : (keysOf fs).Nodup)
    (hrec : memA s.keys k = true → lookupA s.keys k = some (cfg.ktf k)) :
    ((delItem cfg s fs k).isOk = memA s.keys k) ∧
    (∀ s' fs', delItem cfg s fs k = .ok () (s', fs') →
        memA s'.keys k = false ∧ memA s'.inmem k = false ∧
        memA s'.heap k = false ∧
        lookupA fs' (cfg.path ++ "/" ++ cfg.ktf k) = none) := by
  have hfn := keyToFilename_of_rec hrec
  constructor
  · rw [delItem_eq]
    by_cases hk : memA s.keys k <;> simp [hk, Res.isOk]
  · intro s' fs' h
    rw [delItem_eq] at h
    simp only [hfn] at h
    by_cases hk : memA s.keys k
    · rw [if_pos hk] at h
      cases h
      refine ⟨?_, ?_, ?_, ?_⟩
      · rw [memA_false_iff]
        exact lookupA_eraseA_self s.keys k hnk
      · by_cases h1 : memA s.inmem k
        · simp only [h1, if_true, memA_false_iff]
          exact lookupA_eraseA_self s.inmem k hni
        · simp only [h1, if_false]
          simpa using h1
      · by_cases h2 : memA s.heap k
        · simp only [h2, if_true, memA_false_iff]
          exact lookupA_eraseA_self s.heap k hnh
        · simp only [h2, if_false]
          simpa using h2
      · by_cases h3 : memA fs (cfg.path ++ "/" ++ cfg.ktf k)
        · simp only [h3, if_true]
          exact lookupA_eraseA_self fs _ hnf
        · simp only [h3, if_false]
          rw [← memA_false_iff]
          simpa using h3
    · rw [if_neg hk] at h
      cases h

/-- Witness for `c9_delete_spec`: a concrete populated store whose only
key is also on disk; deleting it empties index, memory, heap and path. -/
theorem c9_delete_spec_witness :
    ((delItem cfgStr sResident [("c/x", FileData.val "v")] "x").isOk
        = memA sResident.keys "x") ∧
    (memA ({ inmem := [], keys := [], heap := [], counter := 5 }
        : ChestState String String).keys "x" = false ∧
     memA ({ inmem := [], keys := [], heap := [], counter := 5 }
        : ChestState String String).inmem "x" = false ∧
     memA ({ inmem := [], keys := [], heap := [], counter := 5 }
        : ChestState String String).heap "x" = false ∧
     lookupA ([] : FS String String String)
        (cfgStr.path ++ "/" ++ cfgStr.ktf "x") = none) :=
  ⟨(c9_delete_spec cfgStr sResident [("c/x", FileData.val "v")] "x"
      (by decide) (by decide) (by decide) (by decide) (by decide)).1,
   (c9_delete_spec cfgStr sResident [("c/x", FileData.val "v")] "x"
      (by decide) (by decide) (by decide) (by decide) (by decide)).2
      { inmem := [], keys := [], heap := [], counter := 5 } [] (by decide)⟩

end ChestModel


/-! ## More association-list lemmas, for the trace invariant -/

namespace ChestModel

variable {K V : Type} [DecidableEq K]

theorem eraseA_of_not_mem {l : List (K × V)} {k : K}
    (h : lookupA l k = none) : eraseA l k = l := by
  induction l with
  | nil => rfl
  | cons hd tl ih =>
      obtain ⟨k2, v2⟩ := hd
      rw [lookupA_cons] at h
      by_cases h2 : k = k2
      · rw [if_pos h2] at h; cases h
      · rw [if_neg h2] at h
        simp [eraseA, h2, ih h]

theorem lookupA_eraseA_some {l : List (K × V)} {k0 k : K} {v : V}
    (hn : (keysOf l).Nodup)
    (h : lookupA (eraseA l k0) k = some v) : lookupA l k = some v := by
  by_cases hk : k = k0
  · subst hk
    rw [lookupA_eraseA_self l k hn] at h
    cases h
  · rwa [lookupA_eraseA_ne l hk] at h

theorem memA_insertA_self (l : List (K × V)) (k : K) (v : V) :
    memA (insertA l k v) k = true := by
  unfold memA
  rw [lookupA_insertA_self]
  rfl

theorem memA_insertA_ne (l : List (K × V)) {k k' : K} (v : V) (h : k ≠ k') :
    memA (insertA l k' v) k = memA l k := by
  unfold memA
  rw [lookupA_insertA_ne l v h]

theorem memA_eraseA_ne (l : List (K × V)) {k k' : K} (h : k ≠ k') :
    memA (eraseA l k') k = memA l k := by
  unfold memA
  rw [lookupA_eraseA_ne l h]

theorem memA_eraseA_self (l : List (K × V)) (k : K)
    (hn : (keysOf l).Nodup) : memA (eraseA l k) k = false := by
  unfold memA
  rw [lookupA_eraseA_self l k hn]
  rfl

theorem lookupA_none_of_memA_false {l : List (K × V)} {k : K}
    (h : memA l k = false) : lookupA l k = none := by
  rwa [memA_false_iff] at h

theorem memA_true_of_lookupA {l : List (K × V)} {k : K} {v : V}
    (h : lookupA l k = some v) : memA l k = true := by
  unfold memA
  rw [h]
  rfl

end ChestModel

/-! ## Well-behaved configurations and the store invariant -/

namespace ChestModel

/-- The first component of `++` on strings cancels. -/
theorem string_append_cancel_left {a b c : String} (h : a ++ b = a ++ c) :
    b = c := by
  have hd : (a ++ b).data = (a ++ c).data := by rw [h]
  simp only [String.data_append] at hd
  exact String.ext (List.append_cancel_left hd)

variable {K V B : Type} [DecidableEq K]

/-- The absolute path for a key under the configured mapping (what
`key_to_filename` returns when `_keys` records nothing different). -/
def pathOf (cfg : Config K V B) (k : K) : String :=
  cfg.path ++ "/" ++ cfg.ktf k

/-- A configuration under which the spec's round-trip property can hold at
all: the filename mapping is injective and avoids the sidecar's name, and
the codec decodes what it encoded. -/
structure GoodCfg (cfg : Config K V B) : Prop where
  inj : ∀ k1 k2, cfg.ktf k1 = cfg.ktf k2 → k1 = k2
  rt : ∀ v b2, cfg.dump v = some b2 → cfg.load b2 = v
  kn : ∀ k, cfg.ktf k ≠ ".keys"

theorem pathOf_inj {cfg : Config K V B} (hg : GoodCfg cfg) {k1 k2 : K}
    (h : pathOf cfg k1 = pathOf cfg k2) : k1 = k2 := by
  unfold pathOf at h
  rw [String.append_assoc, String.append_assoc] at h
  exact hg.inj k1 k2
    (string_append_cancel_left (string_append_cancel_left h))

theorem pathOf_ne_sidecar {cfg : Config K V B} (hg : GoodCfg cfg) (k : K) :
    pathOf cfg k ≠ cfg.path ++ "/" ++ ".keys" := by
  unfold pathOf
  rw [String.append_assoc, String.append_assoc]
  intro h
  exact hg.kn k (string_append_cancel_left (string_append_cancel_left h))

/-- When every recorded filename is the mapping's own output, the method
`key_to_filename` returns the canonical path. -/
theorem keyToFilename_eq_pathOf {cfg : Config K V B} {s : ChestState K V}
    {k : K} (hrec : ∀ fn, lookupA s.keys k = some fn → fn = cfg.ktf k) :
    keyToFilename cfg s k = pathOf cfg k := by
  unfold keyToFilename pathOf
  cases hl : lookupA s.keys k with
  | none => rfl
  | some fn0 => rw [hrec fn0 hl]

/-- The invariant tying a store state and the file system to the
plain-dictionary meaning `m` of the trace run so far.  `heap` and `counter`
are unconstrained (no claim in this group depends on them). -/
structure Inv (cfg : Config K V B) (m : List (K × V)) (s : ChestState K V)
    (fs : FS K V B) : Prop where
  nodupInmem : (keysOf s.inmem).Nodup
  nodupKeys : (keysOf s.keys).Nodup
  nodupFs : (keysOf fs).Nodup
  nodupM : (keysOf m).Nodup
  keysDom : ∀ k, memA s.keys k = memA m k
  keysRec : ∀ k fn, lookupA s.keys k = some fn → fn = cfg.ktf k
  inmemSub : ∀ k, memA s.inmem k = true → memA s.keys k = true
  inmemVal : ∀ k v, lookupA s.inmem k = some v → lookupA m k = some v
  fileVal : ∀ k d, memA s.keys k = true →
      lookupA fs (pathOf cfg k) = some d →
      ∃ b v, d = FileData.val b ∧ lookupA m k = some v ∧ cfg.load b = v
  diskPresent : ∀ k, memA s.keys k = true → memA s.inmem k = false →
      ∃ d, lookupA fs (pathOf cfg k) = some d
  freshClear : ∀ k, memA s.keys k = false →
      lookupA fs (pathOf cfg k) = none
  pinned : ∀ k v, lookupA m k = some v → cfg.dump v = none →
      memA s.inmem k = true ∧ lookupA fs (pathOf cfg k) = none

/-- The invariant holds of a freshly constructed store with no seed data
in a fresh directory. -/
theorem Inv_init (cfg : Config K V B) :
    Inv cfg [] (chestInit ([] : List (K × V))) [] := by
  refine ⟨?_, ?_, ?_, ?_, ?_, ?_, ?_, ?_, ?_, ?_, ?_, ?_⟩ <;>
    simp [chestInit, keysOf, memA, lookupA]

/-- The invariant only reads `m` through `lookupA`, so any map-equivalent
nodup `m` works. -/
theorem Inv_congr_m {cfg : Config K V B} {m1 m2 : List (K × V)}
    {s : ChestState K V} {fs : FS K V B} (hI : Inv cfg m1 s fs)
    (hn : (keysOf m2).Nodup) (heq : ∀ k, lookupA m2 k = lookupA m1 k) :
    Inv cfg m2 s fs := by
  have hmem : ∀ k, memA m2 k = memA m1 k := by
    intro k
    unfold memA
    rw [heq k]
  refine ⟨hI.nodupInmem, hI.nodupKeys, hI.nodupFs, hn, ?_, hI.keysRec,
          hI.inmemSub, ?_, ?_, hI.diskPresent, hI.freshClear, ?_⟩
  · intro k
    rw [hmem k]
    exact hI.keysDom k
  · intro k v h
    rw [heq k]
    exact hI.inmemVal k v h
  · intro k d hk hf
    obtain ⟨b, v, hd, hm, hl⟩ := hI.fileVal k d hk hf
    exact ⟨b, v, hd, by rw [heq k]; exact hm, hl⟩
  · intro k v hm hdump
    exact hI.pinned k v (by rw [heq k] at hm; exact hm) hdump

end ChestModel

/-! ## Invariant preservation: the eviction write and the disk read -/

namespace ChestModel

variable {K V B : Type} [DecidableEq K]

/-- Full case analysis of a successful `move_to_disk`: the key was
resident and is erased; the file system is unchanged (write-once skip on an
existing file) or gains the encoded value at the key's path. -/
theorem moveToDisk_cases {cfg : Config K V B} {s : ChestState K V}
    {fs : FS K V B} {k : K} {s' : ChestState K V} {fs' : FS K V B}
    (h : moveToDisk cfg s fs k = .ok () (s', fs')) :
    s' = { s with inmem := eraseA s.inmem k } ∧ memA s.inmem k = true ∧
    ((fs' = fs ∧ memA fs (keyToFilename cfg s k) = true) ∨
     (∃ v b, lookupA s.inmem k = some v ∧ cfg.dump v = some b ∧
        memA fs (keyToFilename cfg s k) = false ∧
        fs' = insertA fs (keyToFilename cfg s k) (FileData.val b))) := by
  unfold moveToDisk at h
  by_cases hex : memA fs (keyToFilename cfg s k)
  · rw [if_pos hex] at h
    by_cases hm : memA s.inmem k
    · rw [if_pos hm] at h
      cases h
      exact ⟨rfl, hm, Or.inl ⟨rfl, hex⟩⟩
    · rw [if_neg hm] at h; cases h
  · rw [if_neg hex] at h
    cases hl : lookupA s.inmem k with
    | none => rw [hl] at h; cases h
    | some v =>
        rw [hl] at h
        simp only at h
        cases hd : cfg.dump v with
        | none => rw [hd] at h; cases h
        | some b =>
            rw [hd] at h
            cases h
            refine ⟨rfl, memA_true_of_lookupA hl,
              Or.inr ⟨v, b, rfl, hd, ?_, rfl⟩⟩
            simpa using hex

/-- A successful `move_to_disk` preserves the invariant (the trace meaning
`m` is unchanged: eviction moves a value, it does not change the store's
logical content). -/
theorem moveToDisk_inv {cfg : Config K V B} (hg : GoodCfg cfg)
    {m : List (K × V)} {s : ChestState K V} {fs : FS K V B} {k : K}
    {s' : ChestState K V} {fs' : FS K V B} (hI : Inv cfg m s fs)
    (h : moveToDisk cfg s fs k = .ok () (s', fs')) : Inv cfg m s' fs' := by
  obtain ⟨hs, hmem, hcase⟩ := moveToDisk_cases h
  have hkk : memA s.keys k = true := hI.inmemSub k hmem
  have hfn : keyToFilename cfg s k = pathOf cfg k :=
    keyToFilename_eq_pathOf (fun fn h0 => hI.keysRec k fn h0)
  rw [hfn] at hcase
  have hsub : ∀ k', memA (eraseA s.inmem k) k' = true →
      memA s.inmem k' = true := by
    intro k' h'
    by_cases hk' : k' = k
    · subst hk'
      rw [memA_eraseA_self s.inmem k' hI.nodupInmem] at h'
      cases h'
    · rwa [memA_eraseA_ne s.inmem hk'] at h'
  subst hs
  rcases hcase with ⟨hfs, hex⟩ | ⟨v, b, hv, hb, hnex, hfs⟩
  · -- write-once skip: the file already existed
    subst hfs
    refine ⟨nodup_keysOf_eraseA s.inmem k hI.nodupInmem, hI.nodupKeys,
            hI.nodupFs, hI.nodupM, hI.keysDom, hI.keysRec, ?_, ?_, hI.fileVal,
            ?_, hI.freshClear, ?_⟩
    · intro k' h'
      exact hI.inmemSub k' (hsub k' h')
    · intro k' v' h'
      exact hI.inmemVal k' v' (lookupA_eraseA_some hI.nodupInmem h')
    · intro k' hk' hni
      by_cases hk2 : k' = k
      · subst hk2
        rw [memA_iff_lookupA] at hex
        obtain ⟨d, hd⟩ := hex
        exact ⟨d, hd⟩
      · rw [memA_eraseA_ne s.inmem hk2] at hni
        exact hI.diskPresent k' hk' hni
    · intro k' v' hm hdump
      obtain ⟨hres, hfile⟩ := hI.pinned k' v' hm hdump
      by_cases hk2 : k' = k
      · subst hk2
        rw [memA_iff_lookupA] at hex
        obtain ⟨d, hd⟩ := hex
        rw [hfile] at hd
        cases hd
      · rw [memA_eraseA_ne s.inmem hk2]
        exact ⟨hres, hfile⟩
  · -- fresh write of the encoded value
    have hmv : lookupA m k = some v := hI.inmemVal k v hv
    subst hfs
    refine ⟨nodup_keysOf_eraseA s.inmem k hI.nodupInmem, hI.nodupKeys,
            nodup_keysOf_insertA fs (pathOf cfg k) (FileData.val b) hI.nodupFs,
            hI.nodupM, hI.keysDom, hI.keysRec, ?_, ?_, ?_, ?_, ?_, ?_⟩
    · intro k' h'
      exact hI.inmemSub k' (hsub k' h')
    · intro k' v' h'
      exact hI.inmemVal k' v' (lookupA_eraseA_some hI.nodupInmem h')
    · intro k' d hk' hf
      by_cases hk2 : k' = k
      · subst hk2
        rw [lookupA_insertA_self] at hf
        cases hf
        exact ⟨b, v, rfl, hmv, hg.rt v b hb⟩
      · have hp : pathOf cfg k' ≠ pathOf cfg k := fun hc => hk2 (pathOf_inj hg hc)
        rw [lookupA_insertA_ne fs _ hp] at hf
        exact hI.fileVal k' d hk' hf
    · intro k' hk' hni
      by_cases hk2 : k' = k
      · subst hk2
        exact ⟨FileData.val b, by rw [lookupA_insertA_self]⟩
      · have hp : pathOf cfg k' ≠ pathOf cfg k := fun hc => hk2 (pathOf_inj hg hc)
        rw [memA_eraseA_ne s.inmem hk2] at hni
        obtain ⟨d, hd⟩ := hI.diskPresent k' hk' hni
        exact ⟨d, by rw [lookupA_insertA_ne fs _ hp]; exact hd⟩
    · intro k' hk'
      have hk2 : k' ≠ k := by
        intro hc
        subst hc
        rw [hkk] at hk'
        cases hk'
      have hp : pathOf cfg k' ≠ pathOf cfg k := fun hc => hk2 (pathOf_inj hg hc)
      rw [lookupA_insertA_ne fs _ hp]
      exact hI.freshClear k' hk'
    · intro k' v' hm hdump
      by_cases hk2 : k' = k
      · subst hk2
        rw [hmv] at hm
        cases hm
        rw [hb] at hdump
        cases hdump
      · have hp : pathOf cfg k' ≠ pathOf cfg k := fun hc => hk2 (pathOf_inj hg hc)
        obtain ⟨hres, hfile⟩ := hI.pinned k' v' hm hdump
        rw [memA_eraseA_ne s.inmem hk2, lookupA_insertA_ne fs _ hp]
        exact ⟨hres, hfile⟩

/-- A successful `get_from_disk` of an indexed key preserves the invariant,
leaves the file system alone, and makes the key resident with its logical
value. -/
theorem getFromDisk_inv {cfg : Config K V B} {m : List (K × V)}
    {s : ChestState K V} {fs : FS K V B} {k : K} {s' : ChestState K V}
    {fs' : FS K V B} (hI : Inv cfg m s fs) (hk : memA s.keys k = true)
    (h : getFromDisk cfg s fs k = .ok () (s', fs')) :
    Inv cfg m s' fs' ∧ fs' = fs ∧
    (∀ v, lookupA m k = some v → lookupA s'.inmem k = some v) := by
  unfold getFromDisk at h
  by_cases hm : memA s.inmem k
  · rw [if_pos hm] at h
    cases h
    refine ⟨hI, rfl, ?_⟩
    intro v hv
    rw [memA_iff_lookupA] at hm
    obtain ⟨v0, hv0⟩ := hm
    have := hI.inmemVal k v0 hv0
    rw [hv] at this
    cases this
    exact hv0
  · rw [if_neg hm] at h
    have hfn : keyToFilename cfg s k = pathOf cfg k :=
      keyToFilename_eq_pathOf (fun fn h0 => hI.keysRec k fn h0)
    rw [hfn] at h
    simp only at h
    cases hf : lookupA fs (pathOf cfg k) with
    | none => rw [hf] at h; cases h
    | some d =>
        rw [hf] at h
        obtain ⟨b, v1, hd, hmv, hload⟩ := hI.fileVal k d hk hf
        subst hd
        simp only at h
        cases h
        constructor
        · refine ⟨nodup_keysOf_insertA s.inmem k (cfg.load b) hI.nodupInmem,
                  hI.nodupKeys, hI.nodupFs, hI.nodupM, hI.keysDom, hI.keysRec,
                  ?_, ?_, hI.fileVal, ?_, hI.freshClear, ?_⟩
          · intro k' h'
            by_cases hk2 : k' = k
            · subst hk2; exact hk
            · rw [memA_insertA_ne s.inmem _ hk2] at h'
              exact hI.inmemSub k' h'
          · intro k' v' h'
            by_cases hk2 : k' = k
            · subst hk2
              rw [lookupA_insertA_self] at h'
              cases h'
              rw [hload]
              exact hmv
            · rw [lookupA_insertA_ne s.inmem _ hk2] at h'
              exact hI.inmemVal k' v' h'
          · intro k' hk' hni
            by_cases hk2 : k' = k
            · subst hk2
              rw [memA_insertA_self] at hni
              cases hni
            · rw [memA_insertA_ne s.inmem _ hk2] at hni
              exact hI.diskPresent k' hk' hni
          · intro k' v' hm' hdump
            obtain ⟨hres, hfile⟩ := hI.pinned k' v' hm' hdump
            by_cases hk2 : k' = k
            · subst hk2
              exact ⟨memA_insertA_self s.inmem k' (cfg.load b), hfile⟩
            · rw [memA_insertA_ne s.inmem _ hk2]
              exact ⟨hres, hfile⟩
        · refine ⟨rfl, ?_⟩
          intro v hv
          rw [hmv] at hv
          cases hv
          rw [lookupA_insertA_self, hload]

end ChestModel

/-! ## Invariant preservation: the public operations -/

namespace ChestModel

variable {K V B : Type} [DecidableEq K]

/-- The invariant ignores the recency heap and the clock. -/
theorem Inv_set_heap {cfg : Config K V B} {m : List (K × V)}
    {s : ChestState K V} {fs : FS K V B} (hI : Inv cfg m s fs)
    (hp : List (K × Nat)) (c : Nat) :
    Inv cfg m { s with heap := hp, counter := c } fs :=
  ⟨hI.nodupInmem, hI.nodupKeys, hI.nodupFs, hI.nodupM, hI.keysDom,
   hI.keysRec, hI.inmemSub, hI.inmemVal, hI.fileVal, hI.diskPresent,
   hI.freshClear, hI.pinned⟩

/-- A normally returning eviction loop preserves the invariant. -/
theorem shrinkLoop_inv {cfg : Config K V B} (hg : GoodCfg cfg)
    {m : List (K × V)} :
    ∀ (fuel mem : Nat) (s : ChestState K V) (fs : FS K V B)
      (s' : ChestState K V) (fs' : FS K V B),
      Inv cfg m s fs →
      shrinkLoop cfg fuel mem s fs = .ok () (s', fs') →
      Inv cfg m s' fs' := by
  intro fuel
  induction fuel with
  | zero =>
      intro mem s fs s' fs' hI h
      rw [shrinkLoop.eq_def] at h
      simp only at h
      by_cases hle : mem ≤ cfg.availableMemory
      · rw [if_pos hle] at h; cases h; exact hI
      · rw [if_neg hle] at h
        cases hpop : popMin s.heap with
        | none => simp [hpop] at h
        | some x => simp [hpop] at h
  | succ fuel' ih =>
      intro mem s fs s' fs' hI h
      rw [shrinkLoop.eq_def] at h
      simp only at h
      by_cases hle : mem ≤ cfg.availableMemory
      · rw [if_pos hle] at h; cases h; exact hI
      · rw [if_neg hle] at h
        cases hpop : popMin s.heap with
        | none => simp [hpop] at h
        | some x =>
            obtain ⟨⟨k, p⟩, rest⟩ := x
            rw [hpop] at h
            simp only at h
            have hI1 : Inv cfg m ({ s with heap := rest }) fs := by
              have := Inv_set_heap hI rest s.counter
              exact this
            cases hl : lookupA ({ s with heap := rest } : ChestState K V).inmem k with
            | none => rw [hl] at h; cases h
            | some data =>
                rw [hl] at h
                cases hmv : moveToDisk cfg { s with heap := rest } fs k with
                | ok u st2 =>
                    obtain ⟨s2, fs2⟩ := st2
                    rw [hmv] at h
                    exact ih _ s2 fs2 s' fs' (moveToDisk_inv hg hI1 hmv) h
                | err e st2 =>
                    obtain ⟨s2, fs2⟩ := st2
                    rw [hmv] at h
                    cases e with
                    | typeError =>
                        have hst := moveToDisk_typeError hmv
                        cases hst
                        exact ih _ _ _ s' fs' hI1 h
                    | keyError => cases h
                    | heapEmpty => cases h
                    | ioError => cases h

/-- A normally returning `shrink` preserves the invariant. -/
theorem shrink_inv {cfg : Config K V B} (hg : GoodCfg cfg)
    {m : List (K × V)} {s : ChestState K V} {fs : FS K V B}
    {s' : ChestState K V} {fs' : FS K V B} (hI : Inv cfg m s fs)
    (h : shrink cfg s fs = .ok () (s', fs')) : Inv cfg m s' fs' := by
  unfold shrink at h
  by_cases hlt : memoryUsage cfg s < cfg.availableMemory
  · rw [if_pos hlt] at h; cases h; exact hI
  · rw [if_neg hlt] at h
    exact shrinkLoop_inv hg _ _ s fs s' fs' hI h

/-- A successful delete takes `m` to `m` without the key. -/
theorem delItem_inv {cfg : Config K V B} (hg : GoodCfg cfg)
    {m : List (K × V)} {s : ChestState K V} {fs : FS K V B} {k : K}
    {s' : ChestState K V} {fs' : FS K V B} (hI : Inv cfg m s fs)
    (h : delItem cfg s fs k = .ok () (s', fs')) :
    Inv cfg (eraseA m k) s' fs' := by
  rw [delItem_eq] at h
  simp only at h
  by_cases hk : memA s.keys k
  swap
  · rw [if_neg hk] at h; cases h
  rw [if_pos hk] at h
  have hfn : keyToFilename cfg s k = pathOf cfg k :=
    keyToFilename_eq_pathOf (fun fn h0 => hI.keysRec k fn h0)
  rw [hfn] at h
  cases h
  -- notation for the new components
  have hne_of_mem_inmem : ∀ k',
      memA (if memA s.inmem k then eraseA s.inmem k else s.inmem) k' = true →
      k' ≠ k ∧ memA s.inmem k' = true := by
    intro k' h'
    by_cases hk2 : k' = k
    · subst hk2
      by_cases hm : memA s.inmem k'
      · rw [if_pos hm, memA_eraseA_self s.inmem k' hI.nodupInmem] at h'
        cases h'
      · rw [if_neg hm] at h'
        rw [h'] at hm
        cases hm rfl
    · refine ⟨hk2, ?_⟩
      by_cases hm : memA s.inmem k
      · rwa [if_pos hm, memA_eraseA_ne s.inmem hk2] at h'
      · rwa [if_neg hm] at h'
  have hfs' : ∀ p, p ≠ pathOf cfg k →
      lookupA (if memA fs (pathOf cfg k) then eraseA fs (pathOf cfg k) else fs) p
        = lookupA fs p := by
    intro p hp
    by_cases hf : memA fs (pathOf cfg k)
    · rw [if_pos hf, lookupA_eraseA_ne fs hp]
    · rw [if_neg hf]
  have hfsk : lookupA
      (if memA fs (pathOf cfg k) then eraseA fs (pathOf cfg k) else fs)
      (pathOf cfg k) = none := by
    by_cases hf : memA fs (pathOf cfg k)
    · rw [if_pos hf]
      exact lookupA_eraseA_self fs _ hI.nodupFs
    · rw [if_neg hf]
      exact lookupA_none_of_memA_false (by simpa using hf)
  refine ⟨?_, ?_, ?_, ?_, ?_, ?_, ?_, ?_, ?_, ?_, ?_, ?_⟩
  ·
      by_cases hm : memA s.inmem k
      · simpa [hm] using nodup_keysOf_eraseA s.inmem k hI.nodupInmem
      · simpa [hm] using hI.nodupInmem
  · exact nodup_keysOf_eraseA s.keys k hI.nodupKeys
  ·
      by_cases hf : memA fs (pathOf cfg k)
      · simpa [hf] using nodup_keysOf_eraseA fs _ hI.nodupFs
      · simpa [hf] using hI.nodupFs
  · exact nodup_keysOf_eraseA m k hI.nodupM
  ·
      intro k'
      by_cases hk2 : k' = k
      · subst hk2
        rw [memA_eraseA_self s.keys k' hI.nodupKeys,
            memA_eraseA_self m k' hI.nodupM]
      · rw [memA_eraseA_ne s.keys hk2, memA_eraseA_ne m hk2]
        exact hI.keysDom k'
  ·
      intro k' fn h'
      exact hI.keysRec k' fn (lookupA_eraseA_some hI.nodupKeys h')
  ·
      intro k' h'
      obtain ⟨hk2, hm⟩ := hne_of_mem_inmem k' h'
      rw [memA_eraseA_ne s.keys hk2]
      exact hI.inmemSub k' hm
  ·
      intro k' v' h'
      have hk2 : k' ≠ k := by
        have := hne_of_mem_inmem k' (memA_true_of_lookupA h')
        exact this.1
      rw [lookupA_eraseA_ne m hk2]
      refine hI.inmemVal k' v' ?_
      by_cases hm : memA s.inmem k
      · rw [if_pos hm] at h'
        exact lookupA_eraseA_some hI.nodupInmem h'
      · rwa [if_neg hm] at h'
  ·
      intro k' d hk' hf
      have hk2 : k' ≠ k := by
        intro hc
        subst hc
        rw [memA_eraseA_self s.keys k' hI.nodupKeys] at hk'
        cases hk'
      have hp : pathOf cfg k' ≠ pathOf cfg k := fun hc => hk2 (pathOf_inj hg hc)
      rw [hfs' _ hp] at hf
      rw [memA_eraseA_ne s.keys hk2] at hk'
      obtain ⟨b, v', hd, hm, hl⟩ := hI.fileVal k' d hk' hf
      exact ⟨b, v', hd, by rw [lookupA_eraseA_ne m hk2]; exact hm, hl⟩
  ·
      intro k' hk' hni
      have hk2 : k' ≠ k := by
        intro hc
        subst hc
        rw [memA_eraseA_self s.keys k' hI.nodupKeys] at hk'
        cases hk'
      have hp : pathOf cfg k' ≠ pathOf cfg k := fun hc => hk2 (pathOf_inj hg hc)
      rw [memA_eraseA_ne s.keys hk2] at hk'
      have hni' : memA s.inmem k' = false := by
        by_cases hm : memA s.inmem k
        · rwa [if_pos hm, memA_eraseA_ne s.inmem hk2] at hni
        · rwa [if_neg hm] at hni
      obtain ⟨d, hd⟩ := hI.diskPresent k' hk' hni'
      exact ⟨d, by rw [hfs' _ hp]; exact hd⟩
  ·
      intro k' hk'
      by_cases hk2 : k' = k
      · subst hk2
        exact hfsk
      · have hp : pathOf cfg k' ≠ pathOf cfg k :=
          fun hc => hk2 (pathOf_inj hg hc)
        rw [memA_eraseA_ne s.keys hk2] at hk'
        rw [hfs' _ hp]
        exact hI.freshClear k' hk'
  ·
      intro k' v' hm' hdump
      have hk2 : k' ≠ k := by
        intro hc
        subst hc
        rw [lookupA_eraseA_self m k' hI.nodupM] at hm'
        cases hm'
      rw [lookupA_eraseA_ne m hk2] at hm'
      obtain ⟨hres, hfile⟩ := hI.pinned k' v' hm' hdump
      have hp : pathOf cfg k' ≠ pathOf cfg k := fun hc => hk2 (pathOf_inj hg hc)
      constructor
      · by_cases hm : memA s.inmem k
        · rw [if_pos hm, memA_eraseA_ne s.inmem hk2]
          exact hres
        · rwa [if_neg hm]
      · rw [hfs' _ hp]
        exact hfile

end ChestModel

namespace ChestModel

variable {K V B : Type} [DecidableEq K]

/-- The pure insertion stage of `__setitem__` (store into `inmem`, register
in `_keys`, bump recency): takes the invariant at `m1` (in which `k` is
absent) to the invariant at `m1` with `k` bound.  The result state is any
state whose `inmem` and `keys` are the two insertions (heap and counter are
free). -/
theorem setInsert_inv {cfg : Config K V B} {m1 : List (K × V)}
    {s1 : ChestState K V} {fs1 : FS K V B} {k : K} {v : V}
    {s2 : ChestState K V}
    (hI : Inv cfg m1 s1 fs1) (hk : memA s1.keys k = false)
    (h2i : s2.inmem = insertA s1.inmem k v)
    (h2k : s2.keys = insertA s1.keys k (cfg.ktf k)) :
    Inv cfg (insertA m1 k v) s2 fs1 := by
  have hfile : lookupA fs1 (pathOf cfg k) = none := hI.freshClear k hk
  refine ⟨?_, ?_, hI.nodupFs, ?_, ?_, ?_, ?_, ?_, ?_, ?_, ?_, ?_⟩
  · rw [h2i]
    exact nodup_keysOf_insertA s1.inmem k v hI.nodupInmem
  · rw [h2k]
    exact nodup_keysOf_insertA s1.keys k (cfg.ktf k) hI.nodupKeys
  · exact nodup_keysOf_insertA m1 k v hI.nodupM
  · intro k'
    rw [h2k]
    by_cases hk2 : k' = k
    · subst hk2
      rw [memA_insertA_self, memA_insertA_self]
    · rw [memA_insertA_ne s1.keys _ hk2, memA_insertA_ne m1 _ hk2]
      exact hI.keysDom k'
  · intro k' fn h'
    rw [h2k] at h'
    by_cases hk2 : k' = k
    · subst hk2
      rw [lookupA_insertA_self] at h'
      cases h'
      rfl
    · rw [lookupA_insertA_ne s1.keys _ hk2] at h'
      exact hI.keysRec k' fn h'
  · intro k' h'
    rw [h2i] at h'
    rw [h2k]
    by_cases hk2 : k' = k
    · subst hk2
      rw [memA_insertA_self]
    · rw [memA_insertA_ne s1.inmem _ hk2] at h'
      rw [memA_insertA_ne s1.keys _ hk2]
      exact hI.inmemSub k' h'
  · intro k' v' h'
    rw [h2i] at h'
    by_cases hk2 : k' = k
    · subst hk2
      rw [lookupA_insertA_self] at h'
      cases h'
      rw [lookupA_insertA_self]
    · rw [lookupA_insertA_ne s1.inmem _ hk2] at h'
      rw [lookupA_insertA_ne m1 _ hk2]
      exact hI.inmemVal k' v' h'
  · intro k' d hk' hf
    rw [h2k] at hk'
    by_cases hk2 : k' = k
    · subst hk2
      rw [hfile] at hf
      cases hf
    · rw [memA_insertA_ne s1.keys _ hk2] at hk'
      obtain ⟨b, v', hd, hm, hl⟩ := hI.fileVal k' d hk' hf
      exact ⟨b, v', hd, by rw [lookupA_insertA_ne m1 _ hk2]; exact hm, hl⟩
  · intro k' hk' hni
    rw [h2k] at hk'
    rw [h2i] at hni
    by_cases hk2 : k' = k
    · subst hk2
      rw [memA_insertA_self] at hni
      cases hni
    · rw [memA_insertA_ne s1.inmem _ hk2] at hni
      rw [memA_insertA_ne s1.keys _ hk2] at hk'
      exact hI.diskPresent k' hk' hni
  · intro k' hk'
    rw [h2k] at hk'
    by_cases hk2 : k' = k
    · subst hk2
      rw [memA_insertA_self] at hk'
      cases hk'
    · rw [memA_insertA_ne s1.keys _ hk2] at hk'
      exact hI.freshClear k' hk'
  · intro k' v' hm' hdump
    rw [h2i]
    by_cases hk2 : k' = k
    · subst hk2
      rw [lookupA_insertA_self] at hm'
      cases hm'
      exact ⟨memA_insertA_self s1.inmem k' v, hfile⟩
    · rw [lookupA_insertA_ne m1 _ hk2] at hm'
      obtain ⟨hres, hfile'⟩ := hI.pinned k' v' hm' hdump
      rw [memA_insertA_ne s1.inmem _ hk2]
      exact ⟨hres, hfile'⟩

/-- A successful `set` takes `m` to `m` with the key bound to the value. -/
theorem setItem_inv {cfg : Config K V B} (hg : GoodCfg cfg)
    {m : List (K × V)} {s : ChestState K V} {fs : FS K V B} {k : K} {v : V}
    {s' : ChestState K V} {fs' : FS K V B} (hI : Inv cfg m s fs)
    (h : setItem cfg s fs k v = .ok () (s', fs')) :
    Inv cfg (insertA m k v) s' fs' := by
  unfold setItem at h
  cases hdel : (if memA s.keys k then delItem cfg s fs k
                else Res.ok () (s, fs)) with
  | err e st => rw [hdel] at h; cases h
  | ok u st =>
      obtain ⟨s1, fs1⟩ := st
      rw [hdel] at h
      simp only at h
      -- the intermediate invariant, with k absent
      have hmid : ∃ m1, Inv cfg m1 s1 fs1 ∧ memA s1.keys k = false ∧
          (∀ k', lookupA (insertA m k v) k' = lookupA (insertA m1 k v) k') ∧
          (keysOf (insertA m k v)).Nodup := by
        by_cases hk : memA s.keys k
        · rw [if_pos hk] at hdel
          cases u
          have hI1 := delItem_inv hg hI hdel
          refine ⟨eraseA m k, hI1, ?_, ?_, nodup_keysOf_insertA m k v hI.nodupM⟩
          · rw [hI1.keysDom k]
            exact memA_eraseA_self m k hI.nodupM
          · intro k'
            by_cases hk2 : k' = k
            · subst hk2
              rw [lookupA_insertA_self, lookupA_insertA_self]
            · rw [lookupA_insertA_ne _ _ hk2, lookupA_insertA_ne _ _ hk2,
                  lookupA_eraseA_ne m hk2]
        · rw [if_neg hk] at hdel
          cases hdel
          exact ⟨m, hI, by simpa using hk, fun k' => rfl,
            nodup_keysOf_insertA m k v hI.nodupM⟩
      obtain ⟨m1, hI1, hk1, heq, hnod⟩ := hmid
      have hI2 : Inv cfg (insertA m1 k v)
          (updateLru { s1 with
            inmem := insertA s1.inmem k v,
            keys := insertA s1.keys k (cfg.ktf k) } k) fs1 :=
        setInsert_inv hI1 hk1 rfl rfl
      cases hsh : shrink cfg
          (updateLru { s1 with inmem := insertA s1.inmem k v,
                               keys := insertA s1.keys k (cfg.ktf k) } k) fs1 with
      | ok u2 st2 =>
          rw [hsh] at h
          simp only at h
          cases h
          exact Inv_congr_m (shrink_inv hg hI2 hsh) hnod heq
      | err e st2 => rw [hsh] at h; simp only at h; cases h

/-- A successful `get` preserves the invariant (with `m` unchanged) and
returns the key's logical value. -/
theorem getItem_inv {cfg : Config K V B} (hg : GoodCfg cfg)
    {m : List (K × V)} {s : ChestState K V} {fs : FS K V B} {k : K} {v : V}
    {s' : ChestState K V} {fs' : FS K V B} (hI : Inv cfg m s fs)
    (h : getItem cfg s fs k = .ok v (s', fs')) :
    Inv cfg m s' fs' ∧ lookupA m k = some v := by
  unfold getItem at h
  cases hres : lookupA s.inmem k with
  | some v0 =>
      rw [hres] at h
      simp only at h
      cases hsh : shrink cfg s fs with
      | ok u st =>
          rw [hsh] at h
          simp only at h
          cases h
          cases u
          exact ⟨shrink_inv hg hI hsh, hI.inmemVal k v hres⟩
      | err e st => rw [hsh] at h; simp only at h; cases h
  | none =>
      rw [hres] at h
      simp only at h
      by_cases hk : memA s.keys k
      · rw [if_pos hk] at h
        cases hgd : getFromDisk cfg s fs k with
        | err e st => rw [hgd] at h; cases h
        | ok u st =>
            obtain ⟨s1, fs1⟩ := st
            rw [hgd] at h
            simp only at h
            cases u
            obtain ⟨hI1, hfs1, hval⟩ := getFromDisk_inv hI hk hgd
            cases hres1 : lookupA s1.inmem k with
            | none => rw [hres1] at h; cases h
            | some v1 =>
                rw [hres1] at h
                simp only at h
                have hI2 : Inv cfg m (updateLru s1 k) fs1 := by
                  unfold updateLru
                  exact Inv_set_heap hI1 _ _
                cases hsh : shrink cfg (updateLru s1 k) fs1 with
                | ok u2 st2 =>
                    rw [hsh] at h
                    simp only at h
                    cases h
                    cases u2
                    exact ⟨shrink_inv hg hI2 hsh, hI1.inmemVal k v hres1⟩
                | err e st2 => rw [hsh] at h; simp only at h; cases h
      · rw [if_neg hk] at h; cases h

/-- The flush loop preserves the invariant. -/
theorem flushLoop_inv {cfg : Config K V B} (hg : GoodCfg cfg)
    {m : List (K × V)} :
    ∀ (ks : List K) (s : ChestState K V) (fs : FS K V B)
      (s' : ChestState K V) (fs' : FS K V B),
      Inv cfg m s fs → flushLoop cfg ks s fs = .ok () (s', fs') →
      Inv cfg m s' fs' := by
  intro ks
  induction ks with
  | nil =>
      intro s fs s' fs' hI h
      unfold flushLoop at h
      cases h
      exact hI
  | cons k ks ih =>
      intro s fs s' fs' hI h
      unfold flushLoop at h
      cases hmv : moveToDisk cfg s fs k with
      | ok u st =>
          obtain ⟨s1, fs1⟩ := st
          rw [hmv] at h
          cases u
          exact ih s1 fs1 s' fs' (moveToDisk_inv hg hI hmv) h
      | err e st => rw [hmv] at h; cases h

/-- Rewriting the `.keys` sidecar preserves the invariant: the sidecar's
path is no key's path. -/
theorem writeKeys_inv {cfg : Config K V B} (hg : GoodCfg cfg)
    {m : List (K × V)} {s : ChestState K V} {fs : FS K V B}
    (hI : Inv cfg m s fs) : Inv cfg m s (writeKeys cfg s fs) := by
  unfold writeKeys
  have hpath : ∀ k : K, pathOf cfg k ≠ cfg.path ++ "/" ++ ".keys" :=
    pathOf_ne_sidecar hg
  refine ⟨hI.nodupInmem, hI.nodupKeys, ?_, hI.nodupM, hI.keysDom, hI.keysRec,
          hI.inmemSub, hI.inmemVal, ?_, ?_, ?_, ?_⟩
  · exact nodup_keysOf_insertA fs _ _ hI.nodupFs
  · intro k d hk hf
    rw [lookupA_insertA_ne fs _ (hpath k)] at hf
    exact hI.fileVal k d hk hf
  · intro k hk hni
    obtain ⟨d, hd⟩ := hI.diskPresent k hk hni
    exact ⟨d, by rw [lookupA_insertA_ne fs _ (hpath k)]; exact hd⟩
  · intro k hk
    rw [lookupA_insertA_ne fs _ (hpath k)]
    exact hI.freshClear k hk
  · intro k v hm hdump
    obtain ⟨hres, hfile⟩ := hI.pinned k v hm hdump
    exact ⟨hres, by rw [lookupA_insertA_ne fs _ (hpath k)]; exact hfile⟩

/-- A successful `flush` preserves the invariant. -/
theorem flush_inv {cfg : Config K V B} (hg : GoodCfg cfg)
    {m : List (K × V)} {s : ChestState K V} {fs : FS K V B}
    {s' : ChestState K V} {fs' : FS K V B} (hI : Inv cfg m s fs)
    (h : flush cfg s fs = .ok () (s', fs')) : Inv cfg m s' fs' := by
  unfold flush at h
  cases hfl : flushLoop cfg (s.inmem.map Prod.fst) s fs with
  | ok u st =>
      obtain ⟨s1, fs1⟩ := st
      rw [hfl] at h
      simp only at h
      cases h
      cases u
      exact writeKeys_inv hg (flushLoop_inv hg _ s fs _ _ hI hfl)
  | err e st => rw [hfl] at h; cases h

end ChestModel

/-! ## Read-only views, and the residency-subset invariant (C7) -/

namespace ChestModel

variable {K V B : Type} [DecidableEq K]

/-- `Chest.__contains__`: membership is membership in `_keys`. -/
def containsKey (s : ChestState K V) (k : K) : Bool := memA s.keys k

/-- `Chest.__len__`: the size of `_keys`. -/
def lenChest (s : ChestState K V) : Nat := s.keys.length

/-- `Chest.__iter__`: iteration over `_keys`. -/
def keysList (s : ChestState K V) : List K := keysOf s.keys

theorem memA_of_mem_keysOf {l : List (K × V)} {k : K}
    (h : k ∈ keysOf l) : memA l k = true := by
  induction l with
  | nil => simp [keysOf] at h
  | cons hd tl ih =>
      obtain ⟨k2, v2⟩ := hd
      simp only [keysOf, List.map_cons, List.mem_cons] at h
      unfold memA
      rw [lookupA_cons]
      by_cases h2 : k = k2
      · rw [if_pos h2]; rfl
      · rw [if_neg h2]
        rcases h with h | h
        · exact absurd h h2
        · exact ih (by simpa [keysOf] using h)

theorem memA_eraseA_imp {l : List (K × V)} {k0 k' : K}
    (h : memA (eraseA l k0) k' = true) : memA l k' = true := by
  rw [memA_iff_lookupA] at h
  obtain ⟨v, hv⟩ := h
  exact memA_of_mem_keysOf (keysOf_eraseA_sub l k0 k' (mem_keysOf_of_lookupA hv))

/-- The residency-subset invariant: both dicts are duplicate-free and every
resident key is indexed.  Unlike `Inv`, it needs nothing of the
configuration. -/
structure SubInv (s : ChestState K V) : Prop where
  nodupInmem : (keysOf s.inmem).Nodup
  nodupKeys : (keysOf s.keys).Nodup
  sub : ∀ k, memA s.inmem k = true → memA s.keys k = true

theorem SubInv_init : SubInv (chestInit ([] : List (K × V))) := by
  refine ⟨?_, ?_, ?_⟩ <;> simp [chestInit, keysOf, memA, lookupA]

theorem SubInv_set_heap {s : ChestState K V} (hS : SubInv s)
    (hp : List (K × Nat)) (c : Nat) :
    SubInv { s with heap := hp, counter := c } :=
  ⟨hS.nodupInmem, hS.nodupKeys, hS.sub⟩

theorem moveToDisk_subInv {cfg : Config K V B} {s : ChestState K V}
    {fs : FS K V B} {k : K} {s' : ChestState K V} {fs' : FS K V B}
    (hS : SubInv s) (h : moveToDisk cfg s fs k = .ok () (s', fs')) :
    SubInv s' := by
  obtain ⟨hs, -, -⟩ := moveToDisk_cases h
  subst hs
  exact ⟨nodup_keysOf_eraseA s.inmem k hS.nodupInmem, hS.nodupKeys,
         fun k' h' => hS.sub k' (memA_eraseA_imp h')⟩

theorem shrinkLoop_subInv {cfg : Config K V B} :
    ∀ (fuel mem : Nat) (s : ChestState K V) (fs : FS K V B)
      (s' : ChestState K V) (fs' : FS K V B),
      SubInv s → shrinkLoop cfg fuel mem s fs = .ok () (s', fs') →
      SubInv s' := by
  intro fuel
  induction fuel with
  | zero =>
      intro mem s fs s' fs' hS h
      rw [shrinkLoop.eq_def] at h
      simp only at h
      by_cases hle : mem ≤ cfg.availableMemory
      · rw [if_pos hle] at h; cases h; exact hS
      · rw [if_neg hle] at h
        cases hpop : popMin s.heap with
        | none => simp [hpop] at h
        | some x => simp [hpop] at h
  | succ fuel' ih =>
      intro mem s fs s' fs' hS h
      rw [shrinkLoop.eq_def] at h
      simp only at h
      by_cases hle : mem ≤ cfg.availableMemory
      · rw [if_pos hle] at h; cases h; exact hS
      · rw [if_neg hle] at h
        cases hpop : popMin s.heap with
        | none => simp [hpop] at h
        | some x =>
            obtain ⟨⟨k, p⟩, rest⟩ := x
            rw [hpop] at h
            simp only at h
            have hS1 : SubInv ({ s with heap := rest }) :=
              SubInv_set_heap hS rest s.counter
            cases hl : lookupA ({ s with heap := rest } : ChestState K V).inmem k with
            | none => rw [hl] at h; cases h
            | some data =>
                rw [hl] at h
                cases hmv : moveToDisk cfg { s with heap := rest } fs k with
                | ok u st2 =>
                    obtain ⟨s2, fs2⟩ := st2
                    rw [hmv] at h
                    exact ih _ s2 fs2 s' fs' (moveToDisk_subInv hS1 hmv) h
                | err e st2 =>
                    obtain ⟨s2, fs2⟩ := st2
                    rw [hmv] at h
                    cases e with
                    | typeError =>
                        have hst := moveToDisk_typeError hmv
                        cases hst
                        exact ih _ _ _ s' fs' hS1 h
                    | keyError => cases h
                    | heapEmpty => cases h
                    | ioError => cases h

theorem shrink_subInv {cfg : Config K V B} {s : ChestState K V}
    {fs : FS K V B} {s' : ChestState K V} {fs' : FS K V B} (hS : SubInv s)
    (h : shrink cfg s fs = .ok () (s', fs')) : SubInv s' := by
  unfold shrink at h
  by_cases hlt : memoryUsage cfg s < cfg.availableMemory
  · rw [if_pos hlt] at h; cases h; exact hS
  · rw [if_neg hlt] at h
    exact shrinkLoop_subInv _ _ s fs s' fs' hS h

theorem delItem_subInv {cfg : Config K V B} {s : ChestState K V}
    {fs : FS K V B} {k : K} {s' : ChestState K V} {fs' : FS K V B}
    (hS : SubInv s) (h : delItem cfg s fs k = .ok () (s', fs')) :
    SubInv s' := by
  rw [delItem_eq] at h
  simp only at h
  by_cases hk : memA s.keys k
  swap
  · rw [if_neg hk] at h; cases h
  rw [if_pos hk] at h
  cases h
  have hnodup1 : (keysOf (if memA s.inmem k = true then eraseA s.inmem k
      else s.inmem)).Nodup := by
    by_cases hm : memA s.inmem k
    · simpa [hm] using nodup_keysOf_eraseA s.inmem k hS.nodupInmem
    · simpa [hm] using hS.nodupInmem
  refine ⟨hnodup1, nodup_keysOf_eraseA s.keys k hS.nodupKeys, ?_⟩
  intro k' h'
  have h'' : memA s.inmem k' = true ∧ k' ≠ k := by
    by_cases hm : memA s.inmem k
    · rw [if_pos hm] at h'
      refine ⟨memA_eraseA_imp h', ?_⟩
      intro hc
      subst hc
      rw [memA_eraseA_self s.inmem k' hS.nodupInmem] at h'
      cases h'
    · rw [if_neg hm] at h'
      refine ⟨h', ?_⟩
      intro hc
      subst hc
      rw [h'] at hm
      exact hm rfl
  rw [memA_eraseA_ne s.keys h''.2]
  exact hS.sub k' h''.1

theorem setItem_subInv {cfg : Config K V B} {s : ChestState K V}
    {fs : FS K V B} {k : K} {v : V} {s' : ChestState K V} {fs' : FS K V B}
    (hS : SubInv s) (h : setItem cfg s fs k v = .ok () (s', fs')) :
    SubInv s' := by
  unfold setItem at h
  cases hdel : (if memA s.keys k then delItem cfg s fs k
                else Res.ok () (s, fs)) with
  | err e st => rw [hdel] at h; cases h
  | ok u st =>
      obtain ⟨s1, fs1⟩ := st
      rw [hdel] at h
      simp only at h
      have hS1 : SubInv s1 := by
        by_cases hk : memA s.keys k
        · rw [if_pos hk] at hdel
          cases u
          exact delItem_subInv hS hdel
        · rw [if_neg hk] at hdel
          cases hdel
          exact hS
      have hS2 : SubInv (updateLru { s1 with
          inmem := insertA s1.inmem k v,
          keys := insertA s1.keys k (cfg.ktf k) } k) := by
        refine ⟨?_, ?_, ?_⟩
        · exact nodup_keysOf_insertA s1.inmem k v hS1.nodupInmem
        · exact nodup_keysOf_insertA s1.keys k (cfg.ktf k) hS1.nodupKeys
        · intro k' h'
          by_cases hk2 : k' = k
          · subst hk2
            exact memA_insertA_self s1.keys k' (cfg.ktf k')
          · have h'' : memA s1.inmem k' = true := by
              rwa [show (updateLru { s1 with
                  inmem := insertA s1.inmem k v,
                  keys := insertA s1.keys k (cfg.ktf k) } k).inmem
                  = insertA s1.inmem k v from rfl,
                memA_insertA_ne s1.inmem _ hk2] at h'
            rw [show (updateLru { s1 with
                inmem := insertA s1.inmem k v,
                keys := insertA s1.keys k (cfg.ktf k) } k).keys
                = insertA s1.keys k (cfg.ktf k) from rfl,
              memA_insertA_ne s1.keys _ hk2]
            exact hS1.sub k' h''
      cases hsh : shrink cfg
          (updateLru { s1 with
            inmem := insertA s1.inmem k v,
            keys := insertA s1.keys k (cfg.ktf k) } k) fs1 with
      | ok u2 st2 =>
          rw [hsh] at h
          simp only at h
          cases h
          exact shrink_subInv hS2 hsh
      | err e st2 => rw [hsh] at h; simp only at h; cases h

theorem getItem_subInv {cfg : Config K V B} {s : ChestState K V}
    {fs : FS K V B} {k : K} {v : V} {s' : ChestState K V} {fs' : FS K V B}
    (hS : SubInv s) (h : getItem cfg s fs k = .ok v (s', fs')) :
    SubInv s' := by
  unfold getItem at h
  cases hres : lookupA s.inmem k with
  | some v0 =>
      rw [hres] at h
      simp only at h
      cases hsh : shrink cfg s fs with
      | ok u st =>
          rw [hsh] at h
          simp only at h
          cases h
          exact shrink_subInv hS hsh
      | err e st => rw [hsh] at h; simp only at h; cases h
  | none =>
      rw [hres] at h
      simp only at h
      by_cases hk : memA s.keys k
      · rw [if_pos hk] at h
        cases hgd : getFromDisk cfg s fs k with
        | err e st => rw [hgd] at h; cases h
        | ok u st =>
            obtain ⟨s1, fs1⟩ := st
            rw [hgd] at h
            simp only at h
            cases u
            have hS1 : SubInv s1 := by
              unfold getFromDisk at hgd
              rw [if_neg (by simpa [memA] using hres)] at hgd
              simp only at hgd
              cases hf : lookupA fs (keyToFilename cfg s k) with
              | none => rw [hf] at hgd; cases hgd
              | some d =>
                  rw [hf] at hgd
                  cases d with
                  | emptyFile => simp at hgd
                  | keyIndex l => simp at hgd
                  | val b =>
                      simp only at hgd
                      cases hgd
                      refine ⟨nodup_keysOf_insertA s.inmem k (cfg.load b)
                        hS.nodupInmem, hS.nodupKeys, ?_⟩
                      intro k' h'
                      by_cases hk2 : k' = k
                      · subst hk2; exact hk
                      · rw [show ({ s with
                            inmem := insertA s.inmem k (cfg.load b)
                            } : ChestState K V).inmem
                            = insertA s.inmem k (cfg.load b) from rfl,
                          memA_insertA_ne s.inmem _ hk2] at h'
                        exact hS.sub k' h'
            cases hres1 : lookupA s1.inmem k with
            | none => rw [hres1] at h; cases h
            | some v1 =>
                rw [hres1] at h
                simp only at h
                cases hsh : shrink cfg (updateLru s1 k) fs1 with
                | ok u2 st2 =>
                    rw [hsh] at h
                    simp only at h
                    cases h
                    refine shrink_subInv ?_ hsh
                    unfold updateLru
                    exact SubInv_set_heap hS1 _ _
                | err e st2 => rw [hsh] at h; simp only at h; cases h
      · rw [if_neg hk] at h; cases h

theorem flushLoop_subInv {cfg : Config K V B} :
    ∀ (ks : List K) (s : ChestState K V) (fs : FS K V B)
      (s' : ChestState K V) (fs' : FS K V B),
      SubInv s → flushLoop cfg ks s fs = .ok () (s', fs') → SubInv s' := by
  intro ks
  induction ks with
  | nil =>
      intro s fs s' fs' hS h
      unfold flushLoop at h
      cases h
      exact hS
  | cons k ks ih =>
      intro s fs s' fs' hS h
      unfold flushLoop at h
      cases hmv : moveToDisk cfg s fs k with
      | ok u st =>
          obtain ⟨s1, fs1⟩ := st
          rw [hmv] at h
          cases u
          exact ih s1 fs1 s' fs' (moveToDisk_subInv hS hmv) h
      | err e st => rw [hmv] at h; cases h

theorem flush_subInv {cfg : Config K V B} {s : ChestState K V}
    {fs : FS K V B} {s' : ChestState K V} {fs' : FS K V B}
    (hS : SubInv s) (h : flush cfg s fs = .ok () (s', fs')) : SubInv s' := by
  unfold flush at h
  cases hfl : flushLoop cfg (s.inmem.map Prod.fst) s fs with
  | ok u st =>
      obtain ⟨s1, fs1⟩ := st
      rw [hfl] at h
      simp only at h
      cases h
      cases u
      exact flushLoop_subInv _ s fs _ _ hS hfl
  | err e st => rw [hfl] at h; cases h

theorem runOp_subInv {cfg : Config K V B} {op : Op K V}
    {st st' : ChestState K V × FS K V B} (hS : SubInv st.1)
    (h : runOp cfg op st = .ok () st') : SubInv st'.1 := by
  cases op with
  | setOp k v => exact setItem_subInv hS h
  | delOp k => exact delItem_subInv hS h
  | flushOp => exact flush_subInv hS h
  | getOp k =>
      unfold runOp at h
      simp only at h
      cases hg : getItem cfg st.1 st.2 k with
      | ok v st2 =>
          rw [hg] at h
          simp only at h
          cases h
          exact getItem_subInv hS hg
      | err e st2 => rw [hg] at h; simp only at h; cases h

theorem run_subInv {cfg : Config K V B} :
    ∀ (ops : List (Op K V)) (st st' : ChestState K V × FS K V B),
      SubInv st.1 → run cfg ops st = .ok () st' → SubInv st'.1 := by
  intro ops
  induction ops with
  | nil =>
      intro st st' hS h
      unfold run at h
      cases h
      exact hS
  | cons op ops ih =>
      intro st st' hS h
      unfold run at h
      cases hop : runOp cfg op st with
      | ok u st2 =>
          rw [hop] at h
          cases u
          exact ih st2 st' (runOp_subInv hS hop) h
      | err e st2 => rw [hop] at h; cases h

end ChestModel

/-! ## Running whole traces against their dictionary meaning -/

namespace ChestModel

variable {K V B : Type} [DecidableEq K]

/-- One successful operation takes the invariant along its dictionary
meaning. -/
theorem runOp_inv {cfg : Config K V B} (hg : GoodCfg cfg) {m : List (K × V)}
    {op : Op K V} {st st' : ChestState K V × FS K V B}
    (hI : Inv cfg m st.1 st.2) (h : runOp cfg op st = .ok () st') :
    Inv cfg (specStep op m) st'.1 st'.2 := by
  obtain ⟨s', fs'⟩ := st'
  cases op with
  | setOp k v => exact setItem_inv hg hI h
  | delOp k => exact delItem_inv hg hI h
  | flushOp => exact flush_inv hg hI h
  | getOp k =>
      unfold runOp at h
      simp only at h
      cases hgi : getItem cfg st.1 st.2 k with
      | ok v st2 =>
          rw [hgi] at h
          simp only at h
          cases h
          exact (getItem_inv hg hI hgi).1
      | err e st2 => rw [hgi] at h; simp only at h; cases h

/-- A successful trace takes the invariant along its dictionary meaning. -/
theorem run_inv {cfg : Config K V B} (hg : GoodCfg cfg) :
    ∀ (ops : List (Op K V)) (m : List (K × V))
      (st st' : ChestState K V × FS K V B),
      Inv cfg m st.1 st.2 → run cfg ops st = .ok () st' →
      Inv cfg (specRun ops m) st'.1 st'.2 := by
  intro ops
  induction ops with
  | nil =>
      intro m st st' hI h
      unfold run at h
      cases h
      exact hI
  | cons op ops ih =>
      intro m st st' hI h
      unfold run at h
      cases hop : runOp cfg op st with
      | ok u st2 =>
          rw [hop] at h
          cases u
          exact ih (specStep op m) st2 st' (runOp_inv hg hI hop) h
      | err e st2 => rw [hop] at h; cases h

theorem specRun_append (l1 l2 : List (Op K V)) (m : List (K × V)) :
    specRun (l1 ++ l2) m = specRun l2 (specRun l1 m) := by
  induction l1 generalizing m with
  | nil => rfl
  | cons op ops ih => simp [specRun, ih]

/-- Operations that neither set nor delete `k` do not change `k`'s
dictionary value. -/
theorem specRun_untouched (k : K) :
    ∀ (ops : List (Op K V)) (m : List (K × V)),
      (∀ op ∈ ops, op ≠ Op.delOp k ∧ ∀ v', op ≠ Op.setOp k v') →
      lookupA (specRun ops m) k = lookupA m k := by
  intro ops
  induction ops with
  | nil => intro m hno; rfl
  | cons op ops ih =>
      intro m hno
      have hop := hno op (by simp)
      have hrest : ∀ op' ∈ ops, op' ≠ Op.delOp k ∧ ∀ v', op' ≠ Op.setOp k v' :=
        fun op' h' => hno op' (by simp [h'])
      rw [show specRun (op :: ops) m = specRun ops (specStep op m) from rfl,
          ih (specStep op m) hrest]
      cases op with
      | getOp k' => rfl
      | flushOp => rfl
      | delOp k' =>
          have hk : k ≠ k' := by
            intro hc
            subst hc
            exact hop.1 rfl
          exact lookupA_eraseA_ne m hk
      | setOp k' v' =>
          have hk : k ≠ k' := by
            intro hc
            subst hc
            exact (hop.2 v') rfl
          exact lookupA_insertA_ne m v' hk

/-- After a successful trace, a normally returning `get` returns exactly
the key's dictionary value. -/
theorem get_after_run {cfg : Config K V B} (hg : GoodCfg cfg)
    {ops : List (Op K V)} {st st' : ChestState K V × FS K V B} {k : K}
    {v : V} (hrun : run cfg ops (chestInit [], []) = .ok () st)
    (hget : getItem cfg st.1 st.2 k = .ok v st') :
    lookupA (specRun ops []) k = some v :=
  (getItem_inv hg (run_inv hg ops [] (chestInit [], []) st (Inv_init cfg) hrun)
    hget).2

end ChestModel

/-! ## C7: resident keys and the key index -/

namespace ChestModel

/-- **C7** (amended): in every state reached by a successful trace of
`set`/`get`/`delete`/`flush` operations from a store constructed with an
EMPTY seed dictionary, every resident key is in the key index, hence
reported by `in` and by iteration.  The claim's inclusion of a freshly
seeded store is refuted separately: `__init__` stores the seed dict as
`inmem` without registering its keys in `_keys`. -/
theorem c7_resident_implies_indexed {K V B : Type} [DecidableEq K]
    (cfg : Config K V B) (ops : List (Op K V))
    (st : ChestState K V × FS K V B)
    (h : run cfg ops (chestInit [], []) = .ok () st) :
    ∀ k, memA st.1.inmem k = true →
      containsKey st.1 k = true ∧ k ∈ keysList st.1 := by
  have hS := run_subInv ops (chestInit [], []) st SubInv_init h
  intro k hk
  have hkk := hS.sub k hk
  obtain ⟨fn, hfn⟩ := (memA_iff_lookupA st.1.keys k).mp hkk
  exact ⟨hkk, mem_keysOf_of_lookupA hfn⟩

/-- Witness for `c7_resident_implies_indexed`: after one `set` the key is
resident, indexed and iterated. -/
theorem c7_resident_implies_indexed_witness :
    containsKey ({ inmem := [("x", "v")], keys := [("x", "x")],
                   heap := [("x", 1)], counter := 1 }
        : ChestState String String) "x" = true ∧
    "x" ∈ keysList ({ inmem := [("x", "v")], keys := [("x", "x")],
                      heap := [("x", 1)], counter := 1 }
        : ChestState String String) :=
  c7_resident_implies_indexed cfgStr [Op.setOp "x" "v"]
    ({ inmem := [("x", "v")], keys := [("x", "x")], heap := [("x", 1)],
       counter := 1 }, []) (by decide) "x" (by decide)

/-- Counterexample to C7 as stated: a store freshly constructed with the
non-empty seed `{'a': 'v'}` has `a` resident but not in the key index:
`'a' in c` is false, `len(c)` is 0 and iteration yields nothing. -/
theorem c7_counterexample :
    memA (chestInit [(("a" : String), ("v" : String))]).inmem "a" = true ∧
    containsKey (chestInit [(("a" : String), ("v" : String))]) "a" = false ∧
    lenChest (chestInit [(("a" : String), ("v" : String))]) = 0 ∧
    keysList (chestInit [(("a" : String), ("v" : String))]) = [] := by decide

end ChestModel

/-! ## C1: set-then-get round trip -/

namespace ChestModel

/-- An injective filename mapping avoiding the sidecar name: prepend
`k_`. -/
def cfgInj : Config String String String :=
  { path := "c", availableMemory := 0, dump := fun v => some v,
    load := fun b => b, nbytes := fun _ => 10, ktf := fun k => "k_" ++ k }

theorem kpre_ne_keys (k : String) : "k_" ++ k ≠ ".keys" := by
  intro h
  have hd := congrArg String.data h
  rw [String.data_append] at hd
  have h2 : 'k' :: '_' :: k.data = ['.', 'k', 'e', 'y', 's'] := hd
  have h3 := congrArg List.head? h2
  simp at h3

theorem cfgInj_good : GoodCfg cfgInj := by
  refine ⟨?_, ?_, ?_⟩
  · intro k1 k2 h
    exact string_append_cancel_left h
  · intro v b2 h
    cases h
    rfl
  · intro k
    exact kpre_ne_keys k

/-- **C1** (amended): over a store whose filename mapping is injective (and
avoids the sidecar name) and whose codec round-trips, every successful
trace of `set`/`get`/`delete`/`flush` operations from a fresh empty store
satisfies the claim: if `set(k, v)` is performed and a later `get(k)`
returns normally with no intervening `delete(k)` or `set(k, ·)`, the value
returned equals `v` — whether or not `k` was evicted in between.  The
injectivity proviso is forced by the default mapping's collision (see the
counterexample): the unamended claim is false. -/
theorem c1_set_then_get {K V B : Type} [DecidableEq K] (cfg : Config K V B)
    (hg : GoodCfg cfg) (ops1 ops2 : List (Op K V)) (k : K) (v : V)
    (st st' : ChestState K V × FS K V B) (w : V)
    (hno : ∀ op ∈ ops2, op ≠ Op.delOp k ∧ ∀ v', op ≠ Op.setOp k v')
    (hrun : run cfg (ops1 ++ Op.setOp k v :: ops2) (chestInit [], [])
      = .ok () st)
    (hget : getItem cfg st.1 st.2 k = .ok w st') :
    w = v := by
  have hmain := get_after_run hg hrun hget
  rw [specRun_append] at hmain
  rw [show specRun (Op.setOp k v :: ops2) (specRun ops1 [])
      = specRun ops2 (insertA (specRun ops1 []) k v) from rfl] at hmain
  rw [specRun_untouched k ops2 _ hno, lookupA_insertA_self] at hmain
  cases hmain
  rfl

set_option maxHeartbeats 1600000 in
/-- Witness for `c1_set_then_get`: with budget 0 the `set` spills the value
to disk at once and the `get` transparently reloads it. -/
theorem c1_set_then_get_witness : ("a" : String) = "a" :=
  c1_set_then_get cfgInj cfgInj_good [] [] "x" "a"
    (({ inmem := [], keys := [("x", "k_x")], heap := [], counter := 1 },
      [("c/k_x", FileData.val "a")]) : ChestState String String × FS String String String)
    (({ inmem := [], keys := [("x", "k_x")], heap := [], counter := 2 },
      [("c/k_x", FileData.val "a")]) : ChestState String String × FS String String String)
    "a" (by intro op h; cases h) (by decide) (by decide)

set_option maxHeartbeats 4000000 in
/-- Counterexample to C1 as stated: with the DEFAULT key-to-filename
mapping and budget 0, the trace `set(1,'one'); set('1','uno')` followed by
`get('1')` returns `'one'`, not the value `'uno'` that was set — no
`delete('1')` intervened.  Both keys map to the md5 digest of the string
`"1"`, and the write-once check in `move_to_disk` silently keeps key `1`'s
file for key `'1'`. -/
theorem c1_counterexample :
    lookupA (specRun [Op.setOp (PyKey.int 1) "one",
        Op.setOp (PyKey.str "1") "uno"] []) (PyKey.str "1") = some "uno" ∧
    getAfter cfgPy [Op.setOp (PyKey.int 1) "one",
        Op.setOp (PyKey.str "1") "uno"] (PyKey.str "1") = some "one" ∧
    (some ("one" : String) ≠ some "uno") := by
  exact ⟨by decide, by decide, by decide⟩

end ChestModel

/-! ## C4: unserializable (pinned) values -/

namespace ChestModel

/-- Like `cfgInj` but over `Option String` values with the identity codec:
`none` is exactly the value the codec cannot serialize.  Budget 1000. -/
def cfgOptInj : Config String (Option String) String :=
  { path := "c", availableMemory := 1000, dump := fun v => v,
    load := fun b => some b, nbytes := fun _ => 10,
    ktf := fun k => "k_" ++ k }

theorem cfgOptInj_good : GoodCfg cfgOptInj := by
  refine ⟨?_, ?_, ?_⟩
  · exact fun k1 k2 h => string_append_cancel_left h
  · intro v b2 h
    cases v with
    | none => cases h
    | some s => cases h; rfl
  · exact kpre_ne_keys

/-- **C4** (amended): when a value the codec cannot serialize is set (under
budget pressure or not) and not later overwritten or deleted, then after
any successful trace the value is still resident, no file for its key
exists on disk (each eviction attempt removes the partial file), and every
`get` of the key that returns normally returns the value.  The claim's
"the enclosing set/get call does not fail" is refuted separately: when the
pinned values alone exceed the budget, shrink empties the heap and the call
raises. -/
theorem c4_pinned_value_retrievable {K V B : Type} [DecidableEq K]
    (cfg : Config K V B) (hg : GoodCfg cfg) (ops1 ops2 : List (Op K V))
    (k : K) (v : V) (st : ChestState K V × FS K V B)
    (hno : ∀ op ∈ ops2, op ≠ Op.delOp k ∧ ∀ v', op ≠ Op.setOp k v')
    (hbad : cfg.dump v = none)
    (hrun : run cfg (ops1 ++ Op.setOp k v :: ops2) (chestInit [], [])
      = .ok () st) :
    lookupA st.1.inmem k = some v ∧
    lookupA st.2 (pathOf cfg k) = none ∧
    (∀ (w : V) (st' : ChestState K V × FS K V B),
       getItem cfg st.1 st.2 k = .ok w st' → w = v) := by
  have hI := run_inv hg _ [] (chestInit [], []) st (Inv_init cfg) hrun
  have hspec : lookupA (specRun (ops1 ++ Op.setOp k v :: ops2) []) k
      = some v := by
    rw [specRun_append,
        show specRun (Op.setOp k v :: ops2) (specRun ops1 []) =
          specRun ops2 (insertA (specRun ops1 []) k v) from rfl,
        specRun_untouched k ops2 _ hno, lookupA_insertA_self]
  obtain ⟨hres, hfile⟩ := hI.pinned k v hspec hbad
  obtain ⟨v0, hv0⟩ := (memA_iff_lookupA _ _).mp hres
  have hv0m := hI.inmemVal k v0 hv0
  rw [hspec] at hv0m
  cases hv0m
  refine ⟨hv0, hfile, ?_⟩
  intro w st' hget
  have hw := (getItem_inv hg hI hget).2
  rw [hspec] at hw
  cases hw
  rfl

/-- The state after `c['x'] = None` on a fresh `cfgOptInj` store. -/
def c4S : ChestState String (Option String) :=
  { inmem := [("x", none)], keys := [("x", "k_x")], heap := [("x", 1)],
    counter := 1 }

set_option maxHeartbeats 1600000 in
/-- Witness for `c4_pinned_value_retrievable`. -/
theorem c4_pinned_value_retrievable_witness :
    lookupA c4S.inmem "x" = some none ∧
    lookupA ([] : FS String (Option String) String) (pathOf cfgOptInj "x")
      = none ∧
    (∀ (w : Option String)
       (st' : ChestState String (Option String) × FS String (Option String) String),
       getItem cfgOptInj c4S [] "x" = .ok w st' → w = none) :=
  c4_pinned_value_retrievable cfgOptInj cfgOptInj_good [] [] "x" none
    (c4S, []) (by intro op h; cases h) rfl (by decide)

/-- Counterexample to C4's "the enclosing set/get call does not fail": the
codec of `cfgNoDump` can serialize nothing and the budget is 0, so inserting
a single value leaves shrink over budget with only the pinned key to pop;
the loop then pops from the emptied heap and the `set` call raises. -/
theorem c4_counterexample :
    (∀ v : String, cfgNoDump.dump v = none) ∧
    (setItem cfgNoDump (chestInit []) [] "p" "q").errOf
      = some PyError.heapEmpty :=
  ⟨fun _ => rfl, by decide⟩

end ChestModel

/-! ## C10: the default mapping collides -/

namespace ChestModel

set_option maxHeartbeats 4000000 in
/-- **C10**: the default `key_to_filename` is not injective: the int key
`1` and the string key `'1'` (which does not match the identifier pattern)
are distinct keys with equal `str()`, so they map to the same digest
filename whatever the digest function is; consequently, with budget 0,
after `set(1,'one'); set('1','uno')` both keys are evicted to the same
path — the write-once check skips the second write — and `get('1')`
returns key `1`'s value `'one'`. -/
theorem c10_default_mapping_not_injective :
    (∀ md5hex : String → String,
        keyToFilenameDefault md5hex (PyKey.int 1)
          = keyToFilenameDefault md5hex (PyKey.str "1")) ∧
    (PyKey.int 1 ≠ PyKey.str "1") ∧
    getAfter cfgPy [Op.setOp (PyKey.int 1) "one",
        Op.setOp (PyKey.str "1") "uno"] (PyKey.str "1") = some "one" ∧
    getAfter cfgPy [Op.setOp (PyKey.int 1) "one",
        Op.setOp (PyKey.str "1") "uno"] (PyKey.str "1") ≠ some "uno" := by
  refine ⟨fun md5hex => rfl, by decide, by decide, ?_⟩
  intro h
  rw [show getAfter cfgPy [Op.setOp (PyKey.int 1) "one",
      Op.setOp (PyKey.str "1") "uno"] (PyKey.str "1") = some "one"
      from by decide] at h
  exact absurd (Option.some.inj h) (by decide)

end ChestModel

/-! ## C8: helper lemmas for merge correctness -/

namespace ChestModel

variable {K V B : Type} [DecidableEq K]

/-- Is this file-system entry a serialized value? -/
def isValFile : Option (FileData K V B) → Bool
  | some (FileData.val _) => true
  | _ => false

theorem lookupA_mem {l : List (K × V)} {k : K} {v : V}
    (h : lookupA l k = some v) : (k, v) ∈ l := by
  induction l with
  | nil => simp [lookupA] at h
  | cons hd tl ih =>
      obtain ⟨k2, v2⟩ := hd
      rw [lookupA_cons] at h
      by_cases h2 : k = k2
      · rw [if_pos h2] at h
        cases h
        subst h2
        simp
      · rw [if_neg h2] at h
        simp [ih h]

/-- `flush` on a store with nothing resident just rewrites the sidecar. -/
theorem flush_flushed {cfg : Config K V B} {s : ChestState K V}
    {fs : FS K V B} (hin : s.inmem = []) :
    flush cfg s fs = .ok () (s, writeKeys cfg s fs) := by
  unfold flush
  rw [hin]
  rfl

/-- Reading an indexed key of a fully flushed store (small values, recorded
filenames): load the file at the key's path. -/
theorem getValue_flushed {cfg : Config K V B} {s : ChestState K V}
    {fs : FS K V B} {k : K} {b : B} (hin : s.inmem = [])
    (hrec : ∀ fn, lookupA s.keys k = some fn → fn = cfg.ktf k)
    (hk : memA s.keys k = true)
    (hsmall : ∀ v, cfg.nbytes v < cfg.availableMemory)
    (hf : lookupA fs (pathOf cfg k) = some (FileData.val b)) :
    getValue cfg s fs k = some (cfg.load b) := by
  unfold getValue getItem
  have hres : lookupA s.inmem k = none := by rw [hin]; rfl
  rw [hres]
  simp only [hk, if_true]
  have hfn : keyToFilename cfg s k = pathOf cfg k := keyToFilename_eq_pathOf hrec
  have hgd : getFromDisk cfg s fs k =
      .ok () ({ s with inmem := insertA s.inmem k (cfg.load b) }, fs) := by
    unfold getFromDisk
    rw [show memA s.inmem k = false from by rw [hin]; rfl]
    simp only [Bool.false_eq_true, if_false, hfn, hf]
  rw [hgd]
  simp only
  rw [show lookupA ({ s with inmem := insertA s.inmem k (cfg.load b) }
      : ChestState K V).inmem k = some (cfg.load b) from lookupA_insertA_self _ _ _]
  simp only
  have hmemeq : memoryUsage cfg
      (updateLru { s with inmem := insertA s.inmem k (cfg.load b) } k)
      = cfg.nbytes (cfg.load b) := by
    unfold memoryUsage updateLru
    simp only
    rw [hin]
    simp [insertA]
  have hsh : shrink cfg
      (updateLru { s with inmem := insertA s.inmem k (cfg.load b) } k) fs =
      .ok () (updateLru { s with inmem := insertA s.inmem k (cfg.load b) } k,
              fs) := by
    unfold shrink
    simp only
    rw [hmemeq, if_pos (hsmall (cfg.load b))]
  rw [hsh]

end ChestModel

namespace ChestModel

variable {K V B : Type} [DecidableEq K]

/-- `del` on a store with nothing resident: the index entry and the file at
the key's path go away, nothing else in the file system changes. -/
theorem delItem_flushed {cfgA : Config K V B} {s : ChestState K V}
    {fs : FS K V B} {k : K} (hin : s.inmem = [])
    (hrec : ∀ fn, lookupA s.keys k = some fn → fn = cfgA.ktf k)
    (hk : memA s.keys k = true) (hnfs : (keysOf fs).Nodup) :
    ∃ (s1 : ChestState K V) (fs1 : FS K V B),
      delItem cfgA s fs k = .ok () (s1, fs1) ∧
      s1.inmem = [] ∧ s1.keys = eraseA s.keys k ∧
      lookupA fs1 (pathOf cfgA k) = none ∧
      (∀ p, p ≠ pathOf cfgA k → lookupA fs1 p = lookupA fs p) ∧
      (keysOf fs1).Nodup := by
  rw [delItem_eq]
  simp only [keyToFilename_eq_pathOf hrec]
  rw [if_pos hk]
  have hmm : memA s.inmem k = false := by rw [hin]; rfl
  refine ⟨_, _, rfl, ?_, rfl, ?_, ?_, ?_⟩
  · simp only [hmm, Bool.false_eq_true, if_false]
    exact hin
  · by_cases hf : memA fs (pathOf cfgA k)
    · rw [if_pos hf]
      exact lookupA_eraseA_self fs _ hnfs
    · rw [if_neg hf]
      exact lookupA_none_of_memA_false (by simpa using hf)
  · intro p hp
    by_cases hf : memA fs (pathOf cfgA k)
    · rw [if_pos hf, lookupA_eraseA_ne fs hp]
    · rw [if_neg hf]
  · by_cases hf : memA fs (pathOf cfgA k)
    · simpa [hf] using nodup_keysOf_eraseA fs _ hnfs
    · simpa [hf] using hnfs

/-- The hard-link step succeeds when the source file exists and the
destination path is free, and registers key and file. -/
theorem updateLink_ok {cfgA cfgB : Config K V B} {other s : ChestState K V}
    {fs : FS K V B} {k : K} {d : FileData K V B}
    (hrecO : ∀ fn, lookupA other.keys k = some fn → fn = cfgB.ktf k)
    (hold : lookupA fs (pathOf cfgB k) = some d)
    (hnew : lookupA fs (pathOf cfgA k) = none) :
    updateLink cfgA cfgB other k s fs =
      .ok () ({ s with keys := insertA s.keys k (cfgA.ktf k) },
              insertA fs (pathOf cfgA k) d) := by
  unfold updateLink
  simp only [keyToFilename_eq_pathOf hrecO, hold]
  have hnewFn : keyToFilename cfgA
      ({ s with keys := insertA s.keys k (cfgA.ktf k) }) k = pathOf cfgA k := by
    unfold keyToFilename
    rw [show ({ s with keys := insertA s.keys k (cfgA.ktf k) }
        : ChestState K V).keys = insertA s.keys k (cfgA.ktf k) from rfl,
      lookupA_insertA_self]
    rfl
  rw [hnewFn]
  rw [show memA fs (pathOf cfgA k) = false from by unfold memA; rw [hnew]; rfl]
  simp

end ChestModel


namespace ChestModel

variable {K V B : Type} [DecidableEq K]

/-- Path injectivity needs only the filename mapping's injectivity. -/
theorem pathOf_inj_of_ktf {cfg : Config K V B}
    (hinj : ∀ k1 k2, cfg.ktf k1 = cfg.ktf k2 → k1 = k2) {k1 k2 : K}
    (h : pathOf cfg k1 = pathOf cfg k2) : k1 = k2 := by
  unfold pathOf at h
  rw [String.append_assoc, String.append_assoc] at h
  exact hinj k1 k2 (string_append_cancel_left (string_append_cancel_left h))

/-- One iteration of the `overwrite=True` merge loop on a flushed
destination: the key ends up registered with the destination mapping's
filename and its destination-path file carries the source file's content;
everything else is untouched. -/
theorem updateLoopTrue_step {cfgA cfgB : Config K V B}
    {other s : ChestState K V} {fs : FS K V B} {k : K}
    (hrecO : ∀ k0 fn, lookupA other.keys k0 = some fn → fn = cfgB.ktf k0)
    (hinjA : ∀ k1 k2, cfgA.ktf k1 = cfgA.ktf k2 → k1 = k2)
    (hdisj : ∀ x y, cfgA.path ++ "/" ++ x ≠ cfgB.path ++ "/" ++ y)
    (hB : isValFile (lookupA fs (pathOf cfgB k)) = true)
    (hin : s.inmem = []) (hnk : (keysOf s.keys).Nodup)
    (hrec : ∀ k0 fn, lookupA s.keys k0 = some fn → fn = cfgA.ktf k0)
    (hnfs : (keysOf fs).Nodup)
    (hfresh : ∀ k0, memA s.keys k0 = false →
      lookupA fs (pathOf cfgA k0) = none) :
    ∃ (s2 : ChestState K V) (fs2 : FS K V B),
      (∀ ks, updateLoop cfgA cfgB other true (k :: ks) s fs
          = updateLoop cfgA cfgB other true ks s2 fs2) ∧
      s2.inmem = [] ∧ (keysOf s2.keys).Nodup ∧
      (∀ k0 fn, lookupA s2.keys k0 = some fn → fn = cfgA.ktf k0) ∧
      (keysOf fs2).Nodup ∧
      (∀ k0, memA s2.keys k0 = false →
        lookupA fs2 (pathOf cfgA k0) = none) ∧
      memA s2.keys k = true ∧
      lookupA fs2 (pathOf cfgA k) = lookupA fs (pathOf cfgB k) ∧
      (∀ k0, k0 ≠ k → memA s2.keys k0 = memA s.keys k0) ∧
      (∀ k0, k0 ≠ k →
        lookupA fs2 (pathOf cfgA k0) = lookupA fs (pathOf cfgA k0)) ∧
      (∀ k0, lookupA fs2 (pathOf cfgB k0) = lookupA fs (pathOf cfgB k0)) := by
  have hAB : ∀ k1 k2 : K, pathOf cfgA k1 ≠ pathOf cfgB k2 :=
    fun k1 k2 => hdisj (cfgA.ktf k1) (cfgB.ktf k2)
  have hAne : ∀ k1 k2 : K, k1 ≠ k2 → pathOf cfgA k1 ≠ pathOf cfgA k2 :=
    fun k1 k2 hne hc => hne (pathOf_inj_of_ktf hinjA hc)
  have hBex : ∃ b, lookupA fs (pathOf cfgB k) = some (FileData.val b) := by
    cases hBl : lookupA fs (pathOf cfgB k) with
    | none => rw [hBl] at hB; simp [isValFile] at hB
    | some d =>
        cases d with
        | val b => exact ⟨b, rfl⟩
        | emptyFile => rw [hBl] at hB; simp [isValFile] at hB
        | keyIndex l => rw [hBl] at hB; simp [isValFile] at hB
  obtain ⟨b, hBl⟩ := hBex
  have hmain : ∃ (s1 : ChestState K V) (fs1 : FS K V B),
      (∀ ks, updateLoop cfgA cfgB other true (k :: ks) s fs
          = (match updateLink cfgA cfgB other k s1 fs1 with
             | .ok _ (s2, fs2) => updateLoop cfgA cfgB other true ks s2 fs2
             | .err e st => .err e st)) ∧
      s1.inmem = [] ∧ (keysOf s1.keys).Nodup ∧
      (∀ k0 fn, lookupA s1.keys k0 = some fn → fn = cfgA.ktf k0) ∧
      (keysOf fs1).Nodup ∧
      lookupA fs1 (pathOf cfgA k) = none ∧
      (∀ p, p ≠ pathOf cfgA k → lookupA fs1 p = lookupA fs p) ∧
      (∀ k0, k0 ≠ k → memA s1.keys k0 = memA s.keys k0) := by
    by_cases hk : memA s.keys k
    · obtain ⟨s1, fs1, hdel, h1in, h1keys, h1none, h1other, h1nodup⟩ :=
        delItem_flushed hin (hrec k) hk hnfs
      refine ⟨s1, fs1, ?_, h1in, ?_, ?_, h1nodup, h1none, h1other, ?_⟩
      · intro ks
        simp only [updateLoop, hk, Bool.and_self, if_true, hdel]
      · rw [h1keys]
        exact nodup_keysOf_eraseA _ _ hnk
      · intro k0 fn h0
        rw [h1keys] at h0
        exact hrec k0 fn (lookupA_eraseA_some hnk h0)
      · intro k0 hk0
        rw [h1keys]
        exact memA_eraseA_ne _ hk0
    · have hkf : memA s.keys k = false := by simpa using hk
      refine ⟨s, fs, ?_, hin, hnk, hrec, hnfs, hfresh k hkf,
        fun p _ => rfl, fun k0 _ => rfl⟩
      intro ks
      simp only [updateLoop, hkf, Bool.false_and, Bool.false_eq_true, if_false]
  obtain ⟨s1, fs1, heq, h1in, h1nk, h1rec, h1nfs, h1none, h1other, h1mem⟩ :=
    hmain
  have hold1 : lookupA fs1 (pathOf cfgB k) = some (FileData.val b) := by
    rw [h1other _ (Ne.symm (hAB k k))]
    exact hBl
  have hlink : updateLink cfgA cfgB other k s1 fs1 =
      .ok () ({ s1 with keys := insertA s1.keys k (cfgA.ktf k) },
              insertA fs1 (pathOf cfgA k) (FileData.val b)) :=
    updateLink_ok (hrecO k) hold1 h1none
  have hkeysS2 : ({ s1 with keys := insertA s1.keys k (cfgA.ktf k) }
      : ChestState K V).keys = insertA s1.keys k (cfgA.ktf k) := rfl
  refine ⟨{ s1 with keys := insertA s1.keys k (cfgA.ktf k) },
          insertA fs1 (pathOf cfgA k) (FileData.val b), ?_, h1in, ?_, ?_, ?_,
          ?_, ?_, ?_, ?_, ?_, ?_⟩
  · intro ks
    rw [heq ks, hlink]
  · rw [hkeysS2]
    exact nodup_keysOf_insertA _ _ _ h1nk
  · intro k0 fn h0
    rw [hkeysS2] at h0
    by_cases hk0 : k0 = k
    · subst hk0
      rw [lookupA_insertA_self] at h0
      cases h0
      rfl
    · rw [lookupA_insertA_ne _ _ hk0] at h0
      exact h1rec k0 fn h0
  · exact nodup_keysOf_insertA _ _ _ h1nfs
  · intro k0 h0
    rw [hkeysS2] at h0
    have hk0 : k0 ≠ k := by
      intro hc
      subst hc
      rw [memA_insertA_self] at h0
      cases h0
    rw [memA_insertA_ne _ _ hk0] at h0
    rw [lookupA_insertA_ne _ _ (hAne k0 k hk0), h1other _ (hAne k0 k hk0)]
    exact hfresh k0 (by rw [← h1mem k0 hk0]; exact h0)
  · rw [hkeysS2]
    exact memA_insertA_self _ _ _
  · rw [lookupA_insertA_self, hBl]
  · intro k0 hk0
    rw [hkeysS2, memA_insertA_ne _ _ hk0]
    exact h1mem k0 hk0
  · intro k0 hk0
    rw [lookupA_insertA_ne _ _ (hAne k0 k hk0)]
    exact h1other _ (hAne k0 k hk0)
  · intro k0
    rw [lookupA_insertA_ne _ _ (Ne.symm (hAB k k0))]
    exact h1other _ (Ne.symm (hAB k k0))

end ChestModel

namespace ChestModel

variable {K V B : Type} [DecidableEq K]

theorem isValFile_eq {o : Option (FileData K V B)} (h : isValFile o = true) :
    ∃ b, o = some (FileData.val b) := by
  cases o with
  | none => simp [isValFile] at h
  | some d =>
      cases d with
      | val b => exact ⟨b, rfl⟩
      | emptyFile => simp [isValFile] at h
      | keyIndex l => simp [isValFile] at h

/-- A path under the mapping never collides with a `.keys` sidecar. -/
theorem pathOf_ne_sidecar_of {cfg : Config K V B}
    (hkn : ∀ k, cfg.ktf k ≠ ".keys") (k : K) :
    pathOf cfg k ≠ cfg.path ++ "/" ++ ".keys" := by
  unfold pathOf
  rw [String.append_assoc, String.append_assoc]
  intro h
  exact hkn k (string_append_cancel_left (string_append_cancel_left h))

/-- The whole `overwrite=True` merge loop on a flushed destination:
every source key's file content arrives at its destination path and is
indexed; everything else is untouched. -/
theorem updateLoopTrue {cfgA cfgB : Config K V B} {other : ChestState K V}
    (hrecO : ∀ k0 fn, lookupA other.keys k0 = some fn → fn = cfgB.ktf k0)
    (hinjA : ∀ k1 k2, cfgA.ktf k1 = cfgA.ktf k2 → k1 = k2)
    (hdisj : ∀ x y, cfgA.path ++ "/" ++ x ≠ cfgB.path ++ "/" ++ y) :
    ∀ (ks : List K) (s : ChestState K V) (fs : FS K V B),
      ks.Nodup →
      (∀ k ∈ ks, isValFile (lookupA fs (pathOf cfgB k)) = true) →
      s.inmem = [] →
      (keysOf s.keys).Nodup →
      (∀ k fn, lookupA s.keys k = some fn → fn = cfgA.ktf k) →
      (keysOf fs).Nodup →
      (∀ k, memA s.keys k = false → lookupA fs (pathOf cfgA k) = none) →
      ∃ (s' : ChestState K V) (fs' : FS K V B),
        updateLoop cfgA cfgB other true ks s fs = .ok () (s', fs') ∧
        s'.inmem = [] ∧
        (∀ k fn, lookupA s'.keys k = some fn → fn = cfgA.ktf k) ∧
        (∀ k, lookupA fs' (pathOf cfgB k) = lookupA fs (pathOf cfgB k)) ∧
        (∀ k ∈ ks, memA s'.keys k = true ∧
           lookupA fs' (pathOf cfgA k) = lookupA fs (pathOf cfgB k)) ∧
        (∀ k, k ∉ ks → memA s'.keys k = memA s.keys k ∧
           lookupA fs' (pathOf cfgA k) = lookupA fs (pathOf cfgA k)) := by
  intro ks
  induction ks with
  | nil =>
      intro s fs _ _ hin hnk hrec hnfs _
      exact ⟨s, fs, rfl, hin, hrec, fun k => rfl, by simp,
             fun k _ => ⟨rfl, rfl⟩⟩
  | cons k ks ih =>
      intro s fs hnd hB hin hnk hrec hnfs hfresh
      obtain ⟨hknotin, hndks⟩ := List.nodup_cons.mp hnd
      obtain ⟨s2, fs2, heq, h2in, h2nk, h2rec, h2nfs, h2fresh, h2memk, h2k,
              h2memne, h2fsAne, h2fsB⟩ :=
        updateLoopTrue_step hrecO hinjA hdisj (hB k (by simp)) hin hnk hrec
          hnfs hfresh
      have hBk : ∀ k0 ∈ ks, isValFile (lookupA fs2 (pathOf cfgB k0))
          = true := by
        intro k0 h0
        rw [h2fsB k0]
        exact hB k0 (by simp [h0])
      obtain ⟨s', fs', hrun, h'in, h'rec, h'fsB, h'ks, h'un⟩ :=
        ih s2 fs2 hndks hBk h2in h2nk h2rec h2nfs h2fresh
      refine ⟨s', fs', by rw [heq ks]; exact hrun, h'in, h'rec,
              fun k0 => (h'fsB k0).trans (h2fsB k0), ?_, ?_⟩
      · intro k0 h0
        rcases List.mem_cons.mp h0 with h0 | h0
        · subst h0
          obtain ⟨hm, hf⟩ := h'un k0 hknotin
          rw [hm, hf]
          exact ⟨h2memk, h2k⟩
        · obtain ⟨hm, hf⟩ := h'ks k0 h0
          rw [hf, h2fsB k0]
          exact ⟨hm, rfl⟩
      · intro k0 h0
        have h0k : k0 ≠ k := fun hc => h0 (by simp [hc])
        have h0ks : k0 ∉ ks := fun hc => h0 (by simp [hc])
        obtain ⟨hm, hf⟩ := h'un k0 h0ks
        rw [hm, hf, h2memne k0 h0k, h2fsAne k0 h0k]
        exact ⟨rfl, rfl⟩

end ChestModel

namespace ChestModel

/-- **C8**: given stores A and B, each populated (every indexed key has its
serialized file, filenames recorded by the store's own injective mapping)
and flushed (nothing resident), in distinct directories, with a shared
codec, sidecar-safe filename mappings, a file system holding only the two
stores' files and sidecars, and values small enough for A's and B's
budgets: `A.update(B, overwrite=True)` succeeds, and afterwards every key
of B reads back on A with B's value for it, while every key only in A reads
back unchanged. -/
theorem c8_merge_overwrite {K V B : Type} [DecidableEq K]
    (cfgA cfgB : Config K V B) (sA sB : ChestState K V) (fs : FS K V B)
    (hinA : sA.inmem = []) (hinB : sB.inmem = [])
    (hnkA : (keysOf sA.keys).Nodup) (hnkB : (keysOf sB.keys).Nodup)
    (hrecA : ∀ kfn ∈ sA.keys, kfn.2 = cfgA.ktf kfn.1)
    (hrecB : ∀ kfn ∈ sB.keys, kfn.2 = cfgB.ktf kfn.1)
    (hnfs : (keysOf fs).Nodup)
    (hfA : ∀ k ∈ keysOf sA.keys,
       isValFile (lookupA fs (pathOf cfgA k)) = true)
    (hfB : ∀ k ∈ keysOf sB.keys,
       isValFile (lookupA fs (pathOf cfgB k)) = true)
    (hshape : ∀ p ∈ keysOf fs,
       (∃ k ∈ keysOf sA.keys, p = pathOf cfgA k) ∨
       (∃ k ∈ keysOf sB.keys, p = pathOf cfgB k) ∨
       p = cfgA.path ++ "/" ++ ".keys" ∨ p = cfgB.path ++ "/" ++ ".keys")
    (hinjA : ∀ k1 k2, cfgA.ktf k1 = cfgA.ktf k2 → k1 = k2)
    (hknA : ∀ k, cfgA.ktf k ≠ ".keys") (hknB : ∀ k, cfgB.ktf k ≠ ".keys")
    (hdisj : ∀ x y, cfgA.path ++ "/" ++ x ≠ cfgB.path ++ "/" ++ y)
    (hsmallA : ∀ v, cfgA.nbytes v < cfgA.availableMemory)
    (hsmallB : ∀ v, cfgB.nbytes v < cfgB.availableMemory)
    (hload : cfgA.load = cfgB.load) :
    ∃ (sA' : ChestState K V) (fs' : FS K V B),
      update cfgA cfgB sA sB fs true = .ok () (sA', sB, fs') ∧
      (∀ k ∈ keysOf sB.keys,
         (getValue cfgA sA' fs' k).isSome = true ∧
         getValue cfgA sA' fs' k = getValue cfgB sB fs' k) ∧
      (∀ k ∈ keysOf sA.keys, k ∉ keysOf sB.keys →
         getValue cfgA sA' fs' k = getValue cfgA sA fs k) := by
  have hrecA' : ∀ k fn, lookupA sA.keys k = some fn → fn = cfgA.ktf k :=
    fun k fn h => hrecA (k, fn) (lookupA_mem h)
  have hrecB' : ∀ k fn, lookupA sB.keys k = some fn → fn = cfgB.ktf k :=
    fun k fn h => hrecB (k, fn) (lookupA_mem h)
  have hAnescB : ∀ k : K,
      pathOf cfgA k ≠ cfgB.path ++ "/" ++ ".keys" :=
    fun k hc => hdisj (cfgA.ktf k) ".keys" hc
  have hBnescA : ∀ k : K,
      pathOf cfgB k ≠ cfgA.path ++ "/" ++ ".keys" :=
    fun k hc => hdisj ".keys" (cfgB.ktf k) hc.symm
  have hfs2A : ∀ k : K,
      lookupA (writeKeys cfgB sB (writeKeys cfgA sA fs)) (pathOf cfgA k)
        = lookupA fs (pathOf cfgA k) := by
    intro k
    unfold writeKeys
    rw [lookupA_insertA_ne _ _ (hAnescB k),
        lookupA_insertA_ne _ _ (pathOf_ne_sidecar_of hknA k)]
  have hfs2B : ∀ k : K,
      lookupA (writeKeys cfgB sB (writeKeys cfgA sA fs)) (pathOf cfgB k)
        = lookupA fs (pathOf cfgB k) := by
    intro k
    unfold writeKeys
    rw [lookupA_insertA_ne _ _ (pathOf_ne_sidecar_of hknB k),
        lookupA_insertA_ne _ _ (hBnescA k)]
  have hnfs2 : (keysOf (writeKeys cfgB sB (writeKeys cfgA sA fs))).Nodup := by
    unfold writeKeys
    exact nodup_keysOf_insertA _ _ _ (nodup_keysOf_insertA _ _ _ hnfs)
  have hfresh2 : ∀ k, memA sA.keys k = false →
      lookupA (writeKeys cfgB sB (writeKeys cfgA sA fs)) (pathOf cfgA k)
        = none := by
    intro k hk
    rw [hfs2A k]
    cases hl : lookupA fs (pathOf cfgA k) with
    | none => rfl
    | some d =>
        exfalso
        have hmem : pathOf cfgA k ∈ keysOf fs := mem_keysOf_of_lookupA hl
        rcases hshape _ hmem with ⟨k', hk', hp⟩ | ⟨k', hk', hp⟩ | hp | hp
        · have hkk : k = k' := pathOf_inj_of_ktf hinjA hp
          subst hkk
          rw [memA_of_mem_keysOf hk'] at hk
          cases hk
        · exact hdisj (cfgA.ktf k) (cfgB.ktf k') hp
        · exact pathOf_ne_sidecar_of hknA k hp
        · exact hAnescB k hp
  have hB2 : ∀ k ∈ keysOf sB.keys,
      isValFile (lookupA (writeKeys cfgB sB (writeKeys cfgA sA fs))
        (pathOf cfgB k)) = true := by
    intro k hk
    rw [hfs2B k]
    exact hfB k hk
  obtain ⟨s', fs', hloop, h'in, h'rec, h'fsB, h'ks, h'un⟩ :=
    updateLoopTrue hrecB' hinjA hdisj (keysOf sB.keys) sA
      (writeKeys cfgB sB (writeKeys cfgA sA fs)) hnkB hB2 hinA hnkA hrecA'
      hnfs2 hfresh2
  refine ⟨s', fs', ?_, ?_, ?_⟩
  · unfold update
    rw [flush_flushed hinA]
    simp only
    rw [flush_flushed hinB]
    simp only
    rw [show (sB.keys.map Prod.fst) = keysOf sB.keys from rfl, hloop]
  · intro k hk
    obtain ⟨hm, hf⟩ := h'ks k hk
    obtain ⟨b, hb⟩ := isValFile_eq (hfB k hk)
    have hfileA : lookupA fs' (pathOf cfgA k) = some (FileData.val b) := by
      rw [hf, hfs2B k, hb]
    have hfileB : lookupA fs' (pathOf cfgB k) = some (FileData.val b) := by
      rw [h'fsB k, hfs2B k, hb]
    rw [getValue_flushed h'in (h'rec k) hm hsmallA hfileA,
        getValue_flushed hinB (hrecB' k) (memA_of_mem_keysOf hk) hsmallB
          hfileB, hload]
    exact ⟨rfl, rfl⟩
  · intro k hk hkb
    obtain ⟨hm, hf⟩ := h'un k hkb
    obtain ⟨b, hb⟩ := isValFile_eq (hfA k hk)
    have hfileA : lookupA fs' (pathOf cfgA k) = some (FileData.val b) := by
      rw [hf, hfs2A k, hb]
    rw [getValue_flushed h'in (h'rec k)
          (by rw [hm]; exact memA_of_mem_keysOf hk) hsmallA hfileA,
        getValue_flushed hinA (hrecA' k) (memA_of_mem_keysOf hk) hsmallA hb]

end ChestModel

namespace ChestModel

/-- Destination store configuration for the merge witness. -/
def cfgA8 : Config String String String :=
  { path := "dirA", availableMemory := 1000, dump := fun v => some v,
    load := fun b => b, nbytes := fun _ => 10, ktf := fun k => "k_" ++ k }

/-- Source store configuration for the merge witness. -/
def cfgB8 : Config String String String :=
  { path := "dirB", availableMemory := 1000, dump := fun v => some v,
    load := fun b => b, nbytes := fun _ => 10, ktf := fun k => "k_" ++ k }

/-- Destination store A: keys `x` (shared) and `w` (A-only), flushed. -/
def sA8 : ChestState String String :=
  { inmem := [], keys := [("x", "k_x"), ("w", "k_w")],
    heap := [("x", 1), ("w", 2)], counter := 2 }

/-- Source store B: keys `x` (shared) and `y` (B-only), flushed. -/
def sB8 : ChestState String String :=
  { inmem := [], keys := [("x", "k_x"), ("y", "k_y")],
    heap := [("x", 1), ("y", 2)], counter := 2 }

/-- The two stores' files. -/
def fs8 : FS String String String :=
  [("dirA/k_x", FileData.val "ax"), ("dirA/k_w", FileData.val "aw"),
   ("dirB/k_x", FileData.val "bx"), ("dirB/k_y", FileData.val "by")]

theorem dirA_ne_dirB (x y : String) :
    ("dirA" : String) ++ "/" ++ x ≠ ("dirB" : String) ++ "/" ++ y := by
  intro h
  have hd := congrArg String.data h
  simp only [String.data_append] at hd
  have h2 : 'd' :: 'i' :: 'r' :: 'A' :: '/' :: x.data
      = 'd' :: 'i' :: 'r' :: 'B' :: '/' :: y.data := hd
  simp only [List.cons.injEq] at h2
  exact absurd h2.2.2.2.1 (by decide)

set_option maxHeartbeats 1600000 in
/-- Witness for `c8_merge_overwrite`. -/
theorem c8_merge_overwrite_witness :
    ∃ (sA' : ChestState String String) (fs' : FS String String String),
      update cfgA8 cfgB8 sA8 sB8 fs8 true = .ok () (sA', sB8, fs') ∧
      (∀ k ∈ keysOf sB8.keys,
         (getValue cfgA8 sA' fs' k).isSome = true ∧
         getValue cfgA8 sA' fs' k = getValue cfgB8 sB8 fs' k) ∧
      (∀ k ∈ keysOf sA8.keys, k ∉ keysOf sB8.keys →
         getValue cfgA8 sA' fs' k = getValue cfgA8 sA8 fs8 k) :=
  c8_merge_overwrite cfgA8 cfgB8 sA8 sB8 fs8 (by decide) (by decide)
    (by decide) (by decide) (by decide) (by decide) (by decide) (by decide)
    (by decide) (by decide)
    (fun k1 k2 h => string_append_cancel_left h)
    kpre_ne_keys kpre_ne_keys dirA_ne_dirB
    (fun _ => by show (10 : Nat) < 1000; decide)
    (fun _ => by show (10 : Nat) < 1000; decide) rfl

end ChestModel
